import Mathlib

/-!
# itf-go: the ITF trace decoder (`itf/trace.go`)

A shallow embedding of the value decoder `toExpr`, the key canonicalization
`toString` / `mapToString`, `Expr.UnmarshalJSON` and `State.UnmarshalJSON`,
followed by theorems about them.

Modelling conventions.

* A Go value of static type `any` is an `AnyVal`.  The constructors `null`,
  `bool`, `str`, `num`, `arr`, `obj` are the dynamic types `encoding/json`
  produces (`nil`, `bool`, `string`, `float64`, `[]any`, `map[string]any`);
  `strMap` is a `map[string]string` (the test calls `toString` on one) and
  `other` is a value of any further dynamic type.
* A Go map is a list of key/value pairs.  For the input maps the list order is
  the order in which `range` enumerates the map; a real Go map has pairwise
  distinct keys.  The output map `MapExprType` is kept sorted by key with one
  entry per key, so structural equality is map equality.
* The loops of `toExpr` and the call `toString(x[k])` are functions of their own
  (`elemLoop`, `entryLoop`, `recordLoop`, `mapAt`, `elemsAt`, `toStringAt`), so
  that every recursive call is on a part of the argument; `mapAt_eq_index` and
  `elemsAt_eq_index` relate them to the index expression of the source.
* A call returns `ok`, returns an `error`, or panics: `Result`.
* The calls into `encoding/json` (`json.Unmarshal` into an `any`, into a
  `map[string]json.RawMessage` and into a `map[string]any`) are parameters of
  `Expr.UnmarshalJSON` and `State.UnmarshalJSON`; a method returns its outcome
  together with the receiver after the call.
* `float64` values are carried, never inspected: `Float64` holds the bit
  pattern.  `int64` values are integers in `[-2^63, 2^63)`.
-/

namespace itf

/-- A `float64`, represented by its IEEE-754 bit pattern; the decoder only moves it around. -/
structure Float64 where
  bits : Nat
  deriving DecidableEq, Repr

/-- Go values of static type `any` that reach the decoder. -/
inductive AnyVal where
  | null : AnyVal
  | bool (b : Bool) : AnyVal
  | str (s : String) : AnyVal
  | num (f : Float64) : AnyVal
  | arr (xs : List AnyVal) : AnyVal
  | obj (fields : List (String × AnyVal)) : AnyVal
  | strMap (fields : List (String × String)) : AnyVal
  | other (typeName : String) : AnyVal

/-- The struct `Expr` with its single field `Value any`, by the dynamic type of the field. -/
inductive Expr where
  | nil : Expr
  | bool (b : Bool) : Expr
  | str (s : String) : Expr
  | num (f : Float64) : Expr
  | int (i : Int) : Expr
  | list (xs : List Expr) : Expr
  | map (m : List (String × Expr)) : Expr

/-- The type `ListExprType = []Expr`. -/
abbrev ListExprType := List Expr

/-- The type `MapExprType = map[string]Expr`, as a key-sorted association list. -/
abbrev MapExprType := List (String × Expr)

/-- The errors `toExpr` and `UnmarshalJSON` return. -/
inductive DecodeError where
  | nullNotAllowed : DecodeError
  | mapEntryNotArray (p : AnyVal) : DecodeError
  | unexpectedType (typeName : String) : DecodeError
  | invalidJSON : DecodeError

/-- The run-time panics the decoder can raise. -/
inductive Panic where
  | indexOutOfRange : Panic
  | parseIntError : Panic
  | typeAssertion : Panic
  deriving DecidableEq, Repr

/-- Outcome of a call: a returned value, a returned error, or a panic. -/
inductive Result (α : Type) where
  | ok (a : α) : Result α
  | error (e : DecodeError) : Result α
  | panic (p : Panic) : Result α

/-- Wrap the returned value of a successful call (`return Expr{list}, nil` after a loop that
may already have returned an error or panicked). -/
def Result.map {α β : Type} (f : α → β) : Result α → Result β
  | Result.ok a => Result.ok (f a)
  | Result.error e => Result.error e
  | Result.panic p => Result.panic p

/-- Lexicographic `<` on character sequences by code point. -/
def ltChars : List Char → List Char → Bool
  | _, [] => false
  | [], _ :: _ => true
  | a :: as, b :: bs =>
    if a.toNat < b.toNat then true
    else if b.toNat < a.toNat then false
    else ltChars as bs

/-- Go's `a < b` on strings: bytewise lexicographic order, which on valid UTF-8 (all that
`encoding/json` produces) is the lexicographic order of the code points. -/
def strLess (a b : String) : Bool := ltChars a.data b.data

/-- Go's `a <= b` on strings. -/
def strLE (a b : String) : Prop := strLess b a = false

instance : DecidableRel strLE := fun a b => inferInstanceAs (Decidable (strLess b a = false))

/-- Assignment `m[key] = v` on an output map. -/
def mapInsert : MapExprType → String → Expr → MapExprType
  | [], key, v => [(key, v)]
  | (k, w) :: rest, key, v =>
    if strLess key k then (key, v) :: (k, w) :: rest
    else if key = k then (key, v) :: rest
    else (k, w) :: mapInsert rest key v

/-- Lookup `m[key]` with the comma-ok flag, on an output map. -/
def mapLookup : MapExprType → String → Option Expr
  | [], _ => none
  | (k, w) :: rest, key => if key = k then some w else mapLookup rest key

/-- Index expression `x[key]` on an input `map[string]any`: the zero value `nil` when absent. -/
def index : List (String × AnyVal) → String → AnyVal
  | [], _ => AnyVal.null
  | (k, v) :: rest, key => if key = k then v else index rest key

/-- Index expression `x[key]` on a `map[string]string`: the zero value `""` when absent. -/
def indexStr : List (String × String) → String → String
  | [], _ => ""
  | (k, v) :: rest, key => if key = k then v else indexStr rest key

/-- The slice `keys` of `mapToString` after `sort.Strings`: `make([]string, len(x))` puts
`len(x)` empty strings in front of the appended field names. -/
def sortedKeys (fieldNames : List String) : List String :=
  List.insertionSort strLE
    (List.replicate fieldNames.length "" ++ fieldNames)

/-- The loop `for _, k := range keys { s += k + toString(x[k]) }`, where `at k` is
`toString(x[k])`. -/
def concatLoop (at_ : String → Result String) : List String → String → Result String
  | [], s => Result.ok s
  | k :: ks, s =>
    match at_ k with
    | Result.ok t => concatLoop at_ ks (s ++ (k ++ t))
    | Result.error e => Result.error e
    | Result.panic p => Result.panic p

mutual
/-- The function `toString(x any) string`. -/
def toString : AnyVal → Result String
  | AnyVal.null => Result.ok ""
  | AnyVal.str s => Result.ok s
  | AnyVal.strMap x =>
    concatLoop (fun k => Result.ok (indexStr x k)) (sortedKeys (x.map Prod.fst)) ""
  | AnyVal.obj x =>
    concatLoop (fun k => toStringAt x k) (sortedKeys (x.map Prod.fst)) ""
  | AnyVal.bool _ => Result.panic Panic.typeAssertion
  | AnyVal.num _ => Result.panic Panic.typeAssertion
  | AnyVal.arr _ => Result.panic Panic.typeAssertion
  | AnyVal.other _ => Result.panic Panic.typeAssertion
/-- The call `toString(x[k])` for `x` a `map[string]any`. -/
def toStringAt : List (String × AnyVal) → String → Result String
  | [], _ => Result.ok ""
  | (k, v) :: rest, key => if key = k then toString v else toStringAt rest key
end

/-- Modelled from the spec: `strconv.ParseUint(s, 10, 64)` of the Go standard library, which
is not part of the repository; `none` stands for a returned error (syntax or range).  The
digits are accumulated left to right and the value may not exceed `2^64 - 1`. -/
def parseUintLoop : List Char → Nat → Option Nat
  | [], n => some n
  | c :: cs, n =>
    if 48 ≤ c.toNat ∧ c.toNat ≤ 57 then
      if n ≥ (2 ^ 64 - 1) / 10 + 1 then none
      else if n * 10 + (c.toNat - 48) > 2 ^ 64 - 1 then none
      else parseUintLoop cs (n * 10 + (c.toNat - 48))
    else none

/-- Modelled from the spec: `strconv.ParseUint(s, 10, 64)`; the empty string is a syntax
error. -/
def ParseUint : List Char → Option Nat
  | [] => none
  | c :: cs => parseUintLoop (c :: cs) 0

/-- Modelled from the spec: the signed part of `strconv.ParseInt`, the cutoff `2^63` applied
to the magnitude returned by `ParseUint`. -/
def applySign (neg : Bool) (un : Nat) : Option Int :=
  if neg = false ∧ un ≥ 2 ^ 63 then none
  else if neg = true ∧ un > 2 ^ 63 then none
  else if neg then some (-(un : Int)) else some (un : Int)

/-- Modelled from the spec: `strconv.ParseInt(s, 10, 64)` of the Go standard library, which
is not part of the repository: "parse as a base-10 signed integer", an optional sign `+` or
`-` followed by one or more decimal digits, with value in `[-2^63, 2^63 - 1]`; `none` stands
for a returned error. -/
def ParseInt (s : String) : Option Int :=
  match s.data with
  | [] => none
  | c :: cs =>
    if c = '+' then (ParseUint cs).bind (applySign false)
    else if c = '-' then (ParseUint cs).bind (applySign true)
    else (ParseUint (c :: cs)).bind (applySign false)

mutual
/-- The function `toExpr(parsed any) (Expr, error)`. -/
def toExpr : AnyVal → Result Expr
  | AnyVal.null => Result.error DecodeError.nullNotAllowed
  | AnyVal.bool b => Result.ok (Expr.bool b)
  | AnyVal.str s => Result.ok (Expr.str s)
  | AnyVal.num f => Result.ok (Expr.num f)
  | AnyVal.arr val => (elemLoop val []).map Expr.list
  | AnyVal.obj val =>
    match decide (val.length = 1), mapAt val "#map" with
    | true, some r => r.map Expr.map
    | _, _ =>
      match decide (val.length = 1), elemsAt val "#tup" with
      | true, some r => r.map Expr.list
      | _, _ =>
        match decide (val.length = 1), elemsAt val "#set" with
        | true, some r => r.map Expr.list
        | _, _ =>
          match index val "#bigint" with
          | AnyVal.str bigintContent =>
            match ParseInt bigintContent with
            | some bigint => Result.ok (Expr.int bigint)
            | none => Result.panic Panic.parseIntError
          | _ => (recordLoop val []).map Expr.map
  | AnyVal.strMap _ => Result.error (DecodeError.unexpectedType "map[string]string")
  | AnyVal.other typeName => Result.error (DecodeError.unexpectedType typeName)
/-- The loop `for _, v := range val { ...; list = append(list, exp) }` shared by the array,
`#tup` and `#set` cases, started with the elements collected so far. -/
def elemLoop : List AnyVal → ListExprType → Result ListExprType
  | [], list => Result.ok list
  | v :: rest, list =>
    match toExpr v with
    | Result.ok exp => elemLoop rest (list ++ [exp])
    | Result.error e => Result.error e
    | Result.panic p => Result.panic p
/-- The loop `for _, p := range mapContent` of the `#map` case, started with the map built so
far. -/
def entryLoop : List AnyVal → MapExprType → Result MapExprType
  | [], map_ => Result.ok map_
  | AnyVal.arr [] :: _, _ => Result.panic Panic.indexOutOfRange
  | AnyVal.arr [_] :: _, _ => Result.panic Panic.indexOutOfRange
  | AnyVal.arr (k :: v :: _) :: rest, map_ =>
    match toExpr v with
    | Result.ok valExpr =>
      match toString k with
      | Result.ok key => entryLoop rest (mapInsert map_ key valExpr)
      | Result.error e => Result.error e
      | Result.panic p => Result.panic p
    | Result.error e => Result.error e
    | Result.panic p => Result.panic p
  | p :: _, _ => Result.error (DecodeError.mapEntryNotArray p)
/-- The loop `for key, val := range val` of the record case, started with the record built
so far. -/
def recordLoop : List (String × AnyVal) → MapExprType → Result MapExprType
  | [], record => Result.ok record
  | (key, v) :: rest, record =>
    match toExpr v with
    | Result.ok valExpr =>
      match toString (AnyVal.str key) with
      | Result.ok s => recordLoop rest (mapInsert record s valExpr)
      | Result.error e => Result.error e
      | Result.panic p => Result.panic p
    | Result.error e => Result.error e
    | Result.panic p => Result.panic p
/-- The pair `val[key].([]any)` followed by the `#map` loop: `none` when the assertion fails,
else the outcome of the loop over the asserted slice. -/
def mapAt : List (String × AnyVal) → String → Option (Result MapExprType)
  | [], _ => none
  | (k, AnyVal.arr mapContent) :: rest, key =>
    if key = k then some (entryLoop mapContent []) else mapAt rest key
  | (k, _) :: rest, key => if key = k then none else mapAt rest key
/-- The pair `val[key].([]any)` followed by the element loop of the `#tup` and `#set` cases. -/
def elemsAt : List (String × AnyVal) → String → Option (Result ListExprType)
  | [], _ => none
  | (k, AnyVal.arr mapContent) :: rest, key =>
    if key = k then some (elemLoop mapContent []) else elemsAt rest key
  | (k, _) :: rest, key => if key = k then none else elemsAt rest key
end

/-- The method `(e *Expr) UnmarshalJSON(data []byte) error`: the returned outcome and the
receiver after the call.  `unmarshal` is `json.Unmarshal(data, &parsed)` into a fresh `any`
(`none` when the library reports an error). -/
def Expr.UnmarshalJSON (unmarshal : String → Option AnyVal) (e : Expr) (data : String) :
    Result Unit × Expr :=
  if data = "null" ∨ data = "\"\"" then (Result.ok (), e)
  else
    match unmarshal data with
    | none => (Result.error DecodeError.invalidJSON, e)
    | some parsed =>
      match toExpr parsed with
      | Result.ok expr => (Result.ok (), expr)
      | Result.error err => (Result.error err, e)
      | Result.panic p => (Result.panic p, e)

/-- The struct `State`: `Meta map[string]any` and `VarValues map[string]*Expr`, each `none`
when the map is nil. -/
structure State where
  Meta : Option (List (String × AnyVal))
  VarValues : Option MapExprType

/-- The loop `for k, v := range objmap` of `State.UnmarshalJSON`, started with the current
values of the locals `meta` and `values`.  `unmarshalMeta` is `json.Unmarshal(v, &meta)` into
the nil `map[string]any` (`none` when the library reports an error, else the new value of
`meta`); the call `json.Unmarshal(v, &expr)` on a fresh `Expr` runs `Expr.UnmarshalJSON`. -/
def stateLoop (unmarshalMeta : String → Option (Option (List (String × AnyVal))))
    (unmarshal : String → Option AnyVal) :
    List (String × String) → Option (List (String × AnyVal)) → MapExprType →
      Result (Option (List (String × AnyVal)) × MapExprType)
  | [], meta, values => Result.ok (meta, values)
  | (k, v) :: rest, meta, values =>
    if k = "#meta" then
      match unmarshalMeta v with
      | none => Result.error DecodeError.invalidJSON
      | some meta1 => stateLoop unmarshalMeta unmarshal rest meta1 values
    else
      match Expr.UnmarshalJSON unmarshal Expr.nil v with
      | (Result.ok _, expr) => stateLoop unmarshalMeta unmarshal rest meta (mapInsert values k expr)
      | (Result.error err, _) => Result.error err
      | (Result.panic p, _) => Result.panic p

/-- The method `(s *State) UnmarshalJSON(data []byte) error`: the returned outcome and the
receiver after the call.  `unmarshalObj` is `json.Unmarshal(data, &objmap)` into a
`map[string]json.RawMessage`, the raw text of every field in `range` order (`none` when the
library reports an error). -/
def State.UnmarshalJSON (unmarshalObj : String → Option (List (String × String)))
    (unmarshalMeta : String → Option (Option (List (String × AnyVal))))
    (unmarshal : String → Option AnyVal) (s : State) (data : String) : Result Unit × State :=
  if data = "null" ∨ data = "\"\"" then (Result.ok (), s)
  else
    match unmarshalObj data with
    | none => (Result.error DecodeError.invalidJSON, s)
    | some objmap =>
      match stateLoop unmarshalMeta unmarshal objmap none [] with
      | Result.ok (meta, values) => (Result.ok (), ⟨meta, some values⟩)
      | Result.error err => (Result.error err, s)
      | Result.panic p => (Result.panic p, s)

/-! ## Vocabulary of the statements -/

/-- A `nil` occurs somewhere in the value: at top level, in an array, or in a field value. -/
inductive ContainsNull : AnyVal → Prop where
  | top : ContainsNull AnyVal.null
  | elem (xs : List AnyVal) (x : AnyVal) : x ∈ xs → ContainsNull x → ContainsNull (AnyVal.arr xs)
  | field (fields : List (String × AnyVal)) (k : String) (v : AnyVal) :
      (k, v) ∈ fields → ContainsNull v → ContainsNull (AnyVal.obj fields)

/-- The value is a `[]any`. -/
def AnyVal.isArr : AnyVal → Bool
  | AnyVal.arr _ => true
  | _ => false

/-- The value is a `string`. -/
def AnyVal.isStr : AnyVal → Bool
  | AnyVal.str _ => true
  | _ => false

/-- The object reaches the record case of `toExpr`: none of the four reserved-key tests
fires. -/
def decodedAsRecord (val : List (String × AnyVal)) : Bool :=
  !(decide (val.length = 1) && (index val "#map").isArr) &&
  !(decide (val.length = 1) && (index val "#tup").isArr) &&
  !(decide (val.length = 1) && (index val "#set").isArr) &&
  !(index val "#bigint").isStr

/-- A `nil` occurs at a position `toExpr` decodes: at top level, as an element of an array, of
a `#tup` or of a `#set`, as the value of a `#map` entry, or as a field value of an object
decoded as a record, nested through such positions only. -/
inductive NullDecoded : AnyVal → Prop where
  | top : NullDecoded AnyVal.null
  | elem (xs : List AnyVal) (x : AnyVal) : x ∈ xs → NullDecoded x → NullDecoded (AnyVal.arr xs)
  | tup (xs : List AnyVal) (x : AnyVal) : x ∈ xs → NullDecoded x →
      NullDecoded (AnyVal.obj [("#tup", AnyVal.arr xs)])
  | set (xs : List AnyVal) (x : AnyVal) : x ∈ xs → NullDecoded x →
      NullDecoded (AnyVal.obj [("#set", AnyVal.arr xs)])
  | mapValue (entries : List AnyVal) (k v : AnyVal) (more : List AnyVal) :
      AnyVal.arr (k :: v :: more) ∈ entries → NullDecoded v →
      NullDecoded (AnyVal.obj [("#map", AnyVal.arr entries)])
  | field (fields : List (String × AnyVal)) (k : String) (v : AnyVal) :
      decodedAsRecord fields = true → (k, v) ∈ fields → NullDecoded v →
      NullDecoded (AnyVal.obj fields)

mutual
/-- A map key that is a string or a record whose leaves are strings. -/
def strLeaves : AnyVal → Bool
  | AnyVal.str _ => true
  | AnyVal.obj fields => strLeavesFields fields
  | _ => false
/-- Every field value is a string or a record whose leaves are strings. -/
def strLeavesFields : List (String × AnyVal) → Bool
  | [] => true
  | (_, v) :: rest => strLeaves v && strLeavesFields rest
end

/-- A JSON boolean, string or number, as `encoding/json` decodes it. -/
def AnyVal.isPrimitive : AnyVal → Bool
  | AnyVal.bool _ => true
  | AnyVal.str _ => true
  | AnyVal.num _ => true
  | _ => false

/-- The `Expr` wrapping a primitive value unchanged: `Expr{val}`. -/
def Expr.ofPrimitive : AnyVal → Expr
  | AnyVal.bool b => Expr.bool b
  | AnyVal.str s => Expr.str s
  | AnyVal.num f => Expr.num f
  | _ => Expr.nil

/-- The base-10 representation of an integer, with a leading `-` when negative. -/
def base10 (n : Int) : String :=
  if n < 0 then "-" ++ Nat.repr n.natAbs else Nat.repr n.natAbs

/-- Modelled from the spec: a finite fragment of `json.Unmarshal` into `any` (Go standard
library, not part of the repository), the decoding of five literals; it instantiates the
parameter `unmarshal` of `Expr.UnmarshalJSON` at concrete inputs. -/
def unmarshalLiteral (data : String) : Option AnyVal :=
  if data = "null" then some AnyVal.null
  else if data = "\"\"" then some (AnyVal.str "")
  else if data = "true" then some (AnyVal.bool true)
  else if data = "false" then some (AnyVal.bool false)
  else if data = "\"abc\"" then some (AnyVal.str "abc")
  else none

/-- The zero value of `State`: both maps nil. -/
def State.zero : State := ⟨none, none⟩

/-- The entries of `VarValues`; a nil map has none. -/
def State.varEntries (s : State) : MapExprType := s.VarValues.getD []

/-- The returned value of a call, when it returned one. -/
def Result.okValue {α : Type} : Result α → Option α
  | Result.ok a => some a
  | Result.error _ => none
  | Result.panic _ => none

mutual
/-- The `Expr` holds a value other than nil, and so does every `Expr` inside its list or
map. -/
def Expr.nonNil : Expr → Bool
  | Expr.nil => false
  | Expr.bool _ => true
  | Expr.str _ => true
  | Expr.num _ => true
  | Expr.int _ => true
  | Expr.list xs => nonNilList xs
  | Expr.map m => nonNilMap m
/-- Every element is `nonNil`. -/
def nonNilList : List Expr → Bool
  | [] => true
  | e :: es => e.nonNil && nonNilList es
/-- Every value of the map is `nonNil`. -/
def nonNilMap : List (String × Expr) → Bool
  | [] => true
  | (_, e) :: m => e.nonNil && nonNilMap m
end

mutual
/-- Two representations of one Go value: they differ at most in the order in which the
fields of their maps are enumerated, at any depth. -/
def sameValue : AnyVal → AnyVal → Prop
  | AnyVal.null, b => b = AnyVal.null
  | AnyVal.bool x, b => b = AnyVal.bool x
  | AnyVal.str x, b => b = AnyVal.str x
  | AnyVal.num x, b => b = AnyVal.num x
  | AnyVal.strMap x, b => b = AnyVal.strMap x
  | AnyVal.other x, b => b = AnyVal.other x
  | AnyVal.arr xs, b => ∃ ys, b = AnyVal.arr ys ∧ sameList xs ys
  | AnyVal.obj fs, b => ∃ gs, b = AnyVal.obj gs ∧ sameFields fs gs
/-- Elementwise `sameValue` on slices of equal length. -/
def sameList : List AnyVal → List AnyVal → Prop
  | [], ys => ys = []
  | x :: xs, ys => ∃ y ys1, ys = y :: ys1 ∧ sameValue x y ∧ sameList xs ys1
/-- The second enumeration holds the fields of the first, each once with the same name and
a `sameValue` value, in any order. -/
def sameFields : List (String × AnyVal) → List (String × AnyVal) → Prop
  | [], gs => gs = []
  | (k, v) :: fs, gs =>
    ∃ w gs1 gs2, gs = gs1 ++ (k, w) :: gs2 ∧ sameValue v w ∧ sameFields fs (gs1 ++ gs2)
end

mutual
/-- Every map in the value has pairwise distinct keys, as every Go map has. -/
def wfKeys : AnyVal → Bool
  | AnyVal.arr xs => wfKeysList xs
  | AnyVal.obj fs => decide (fs.map Prod.fst).Nodup && wfKeysFields fs
  | AnyVal.strMap fs => decide (fs.map Prod.fst).Nodup
  | _ => true
/-- Every element is `wfKeys`. -/
def wfKeysList : List AnyVal → Bool
  | [] => true
  | x :: xs => wfKeys x && wfKeysList xs
/-- Every field value is `wfKeys`. -/
def wfKeysFields : List (String × AnyVal) → Bool
  | [] => true
  | (_, v) :: fs => wfKeys v && wfKeysFields fs
end

/-- Modelled from the spec: a finite fragment of `json.Unmarshal` into a
`map[string]json.RawMessage` (Go standard library, not part of the repository), the decoding
of three object texts; it instantiates the parameter `unmarshalObj` of `State.UnmarshalJSON`
at concrete inputs. -/
def unmarshalObjLiteral (data : String) : Option (List (String × String)) :=
  if data = "\x7b\x7d" then some []
  else if data = "\x7b\"x\":null\x7d" then some [("x", "null")]
  else if data = "\x7b\"#meta\":\x7b\x7d,\"var1\":\"abc\",\"var2\":true\x7d" then
    some [("#meta", "\x7b\x7d"), ("var1", "\"abc\""), ("var2", "true")]
  else none

/-- Modelled from the spec: a finite fragment of `json.Unmarshal` into a nil
`map[string]any` (Go standard library, not part of the repository): the text `{}` gives the
empty map, `null` leaves the map nil, a number is an error. -/
def unmarshalMetaLiteral (data : String) : Option (Option (List (String × AnyVal))) :=
  if data = "\x7b\x7d" then some (some [])
  else if data = "null" then some none
  else none

/-- The keys of an output map are strictly increasing: the form every map built by
`mapInsert` from the empty map has. -/
def keysSorted (m : MapExprType) : Prop :=
  List.Pairwise (fun a b => strLess a.1 b.1 = true) m

/-! ## Theorems -/

/-! ### The cases of `toExpr` on an object, in terms of the index expression -/

theorem Result.map_eq_ok {α β : Type} (f : α → β) (r : Result α) (b : β) :
    r.map f = Result.ok b ↔ ∃ a, r = Result.ok a ∧ f a = b := by
  cases r <;> simp [Result.map]

theorem mapAt_eq_index (val : List (String × AnyVal)) (key : String) :
    mapAt val key =
      match index val key with
      | AnyVal.arr c => some (entryLoop c [])
      | _ => none := by
  induction val with
  | nil => simp [mapAt, index]
  | cons hd tl ih =>
    obtain ⟨k, v⟩ := hd
    cases v <;> simp only [mapAt, index] <;> split <;> first | rfl | exact ih

theorem elemsAt_eq_index (val : List (String × AnyVal)) (key : String) :
    elemsAt val key =
      match index val key with
      | AnyVal.arr c => some (elemLoop c [])
      | _ => none := by
  induction val with
  | nil => simp [elemsAt, index]
  | cons hd tl ih =>
    obtain ⟨k, v⟩ := hd
    cases v <;> simp only [elemsAt, index] <;> split <;> first | rfl | exact ih

theorem toExpr_map (entries : List AnyVal) :
    toExpr (AnyVal.obj [("#map", AnyVal.arr entries)])
      = (entryLoop entries []).map Expr.map := by
  rw [toExpr]
  simp [mapAt]

theorem toExpr_tup (xs : List AnyVal) :
    toExpr (AnyVal.obj [("#tup", AnyVal.arr xs)]) = (elemLoop xs []).map Expr.list := by
  rw [toExpr]
  simp [mapAt, elemsAt]

theorem toExpr_set (xs : List AnyVal) :
    toExpr (AnyVal.obj [("#set", AnyVal.arr xs)]) = (elemLoop xs []).map Expr.list := by
  rw [toExpr]
  simp [mapAt, elemsAt]

theorem toExpr_bigint (s : String) :
    toExpr (AnyVal.obj [("#bigint", AnyVal.str s)])
      = match ParseInt s with
        | some bigint => Result.ok (Expr.int bigint)
        | none => Result.panic Panic.parseIntError := by
  rw [toExpr]
  simp [mapAt, elemsAt, index]

theorem mapAt_isSome (val : List (String × AnyVal)) (key : String) :
    (mapAt val key).isSome = (index val key).isArr := by
  rw [mapAt_eq_index]
  cases index val key <;> rfl

theorem elemsAt_isSome (val : List (String × AnyVal)) (key : String) :
    (elemsAt val key).isSome = (index val key).isArr := by
  rw [elemsAt_eq_index]
  cases index val key <;> rfl

theorem toExpr_record (val : List (String × AnyVal)) (h : decodedAsRecord val = true) :
    toExpr (AnyVal.obj val) = (recordLoop val []).map Expr.map := by
  unfold decodedAsRecord at h
  simp only [Bool.and_eq_true, Bool.not_eq_true', Bool.and_eq_false_iff, decide_eq_false_iff_not,
    decide_eq_true_eq] at h
  obtain ⟨⟨⟨h1, h2⟩, h3⟩, h4⟩ := h
  rw [toExpr]
  split
  · next r hlen hsome =>
    exfalso
    have e := mapAt_isSome val "#map"
    rw [hsome] at e
    simp only [decide_eq_true_eq] at hlen
    rcases h1 with h1 | h1
    · exact h1 hlen
    · rw [h1] at e; simp at e
  · split
    · next r hlen hsome =>
      exfalso
      have e := elemsAt_isSome val "#tup"
      rw [hsome] at e
      simp only [decide_eq_true_eq] at hlen
      rcases h2 with h2 | h2
      · exact h2 hlen
      · rw [h2] at e; simp at e
    · split
      · next r hlen hsome =>
        exfalso
        have e := elemsAt_isSome val "#set"
        rw [hsome] at e
        simp only [decide_eq_true_eq] at hlen
        rcases h3 with h3 | h3
        · exact h3 hlen
        · rw [h3] at e; simp at e
      · split
        · next s hb =>
          rw [hb] at h4
          simp [AnyVal.isStr] at h4
        · rfl

theorem elemLoop_not_ok (xs : List AnyVal) (x : AnyVal) (hx : x ∈ xs)
    (h : ∀ e, toExpr x ≠ Result.ok e) : ∀ acc l, elemLoop xs acc ≠ Result.ok l := by
  induction xs with
  | nil => simp at hx
  | cons y ys ih =>
    intro acc l
    rw [elemLoop]
    rcases List.mem_cons.mp hx with rfl | hmem
    · cases hy : toExpr x with
      | ok e => exact absurd hy (h e)
      | error e => simp
      | panic p => simp
    · cases hy : toExpr y with
      | ok e => simpa using ih hmem _ _
      | error e => simp
      | panic p => simp

theorem entryLoop_not_ok (entries : List AnyVal) (k v : AnyVal) (more : List AnyVal)
    (hx : AnyVal.arr (k :: v :: more) ∈ entries)
    (h : ∀ e, toExpr v ≠ Result.ok e) : ∀ acc m, entryLoop entries acc ≠ Result.ok m := by
  induction entries with
  | nil => simp at hx
  | cons y ys ih =>
    intro acc m
    rcases List.mem_cons.mp hx with heq | hmem
    · subst heq
      rw [entryLoop]
      cases hy : toExpr v with
      | ok e => exact absurd hy (h e)
      | error e => simp
      | panic p => simp
    · cases y with
      | arr pair =>
        match pair with
        | [] => simp [entryLoop]
        | [_] => simp [entryLoop]
        | k2 :: v2 :: more2 =>
          rw [entryLoop]
          cases hy : toExpr v2 with
          | ok e =>
            cases hk : toString k2 with
            | ok key => simpa using ih hmem _ _
            | error e => simp
            | panic p => simp
          | error e => simp
          | panic p => simp
      | _ => simp [entryLoop]

theorem recordLoop_not_ok (fields : List (String × AnyVal)) (k : String) (v : AnyVal)
    (hx : (k, v) ∈ fields)
    (h : ∀ e, toExpr v ≠ Result.ok e) : ∀ acc m, recordLoop fields acc ≠ Result.ok m := by
  induction fields with
  | nil => simp at hx
  | cons y ys ih =>
    intro acc m
    obtain ⟨k2, v2⟩ := y
    rw [recordLoop]
    rcases List.mem_cons.mp hx with heq | hmem
    · cases heq
      cases hy : toExpr v with
      | ok e => exact absurd hy (h e)
      | error e => simp
      | panic p => simp
    · cases hy : toExpr v2 with
      | ok e => simpa [toString] using ih hmem _ _
      | error e => simp
      | panic p => simp

/-! ### Decimal round trip through `ParseInt` -/

theorem digitChar_toNat (m : Nat) (h : m < 10) : (Nat.digitChar m).toNat = 48 + m := by
  interval_cases m <;> rfl

theorem parseUintLoop_digit (m : Nat) (h : m < 10) (cs : List Char) (n : Nat)
    (hn : n * 10 + m < 2 ^ 64) :
    parseUintLoop (Nat.digitChar m :: cs) n = parseUintLoop cs (n * 10 + m) := by
  rw [parseUintLoop, digitChar_toNat m h]
  have e : 48 + m - 48 = m := by omega
  rw [e]
  rw [if_pos (by omega), if_neg (by omega), if_neg (by omega)]

theorem parseUintLoop_toDigitsCore (fuel : Nat) :
    ∀ (n : Nat) (ds : List Char), n < fuel → n < 2 ^ 64 →
      parseUintLoop (Nat.toDigitsCore 10 fuel n ds) 0 = parseUintLoop ds n := by
  induction fuel with
  | zero => intro n ds h; omega
  | succ fuel ih =>
    intro n ds h hn
    rw [Nat.toDigitsCore]
    by_cases h0 : n / 10 = 0
    · simp only [h0, if_true]
      have hlt : n < 10 := by omega
      rw [Nat.mod_eq_of_lt hlt, parseUintLoop_digit n hlt ds 0 (by omega)]
      simp
    · simp only [h0, if_false]
      rw [ih (n / 10) _ (by omega) (by omega),
        parseUintLoop_digit (n % 10) (Nat.mod_lt _ (by decide)) ds (n / 10) (by omega)]
      congr 1
      omega

theorem toDigitsCore_head (fuel : Nat) :
    ∀ (n : Nat) (ds : List Char), n < fuel →
      ∃ c cs, Nat.toDigitsCore 10 fuel n ds = c :: cs ∧ 48 ≤ c.toNat ∧ c.toNat ≤ 57 := by
  induction fuel with
  | zero => intro n ds h; omega
  | succ fuel ih =>
    intro n ds h
    rw [Nat.toDigitsCore]
    by_cases h0 : n / 10 = 0
    · simp only [h0, if_true]
      refine ⟨_, _, rfl, ?_⟩
      have := digitChar_toNat (n % 10) (Nat.mod_lt _ (by decide))
      omega
    · simp only [h0, if_false]
      exact ih (n / 10) _ (by omega)

theorem ParseInt_repr (m : Nat) (hm : m < 2 ^ 64) :
    ParseInt (Nat.repr m) = applySign false m := by
  obtain ⟨c, cs, hcs, h1, h2⟩ := toDigitsCore_head (m + 1) m [] (by omega)
  have hp := parseUintLoop_toDigitsCore (m + 1) m [] (by omega) hm
  have hd : (Nat.repr m).data = c :: cs := by
    simp [Nat.repr, Nat.toDigits, hcs, List.asString]
  unfold ParseInt
  rw [hd]
  have hplus : c ≠ '+' := by rintro rfl; revert h1; decide
  have hminus : c ≠ '-' := by rintro rfl; revert h1; decide
  simp only [hplus, hminus, if_false, ParseUint]
  rw [← hcs, hp]
  simp [parseUintLoop]

theorem ParseInt_neg_repr (m : Nat) (hm : m < 2 ^ 64) :
    ParseInt ("-" ++ Nat.repr m) = applySign true m := by
  obtain ⟨c, cs, hcs, h1, h2⟩ := toDigitsCore_head (m + 1) m [] (by omega)
  have hp := parseUintLoop_toDigitsCore (m + 1) m [] (by omega) hm
  have hd : ("-" ++ Nat.repr m).data = '-' :: c :: cs := by
    simp [Nat.repr, Nat.toDigits, hcs, List.asString]
  unfold ParseInt
  rw [hd]
  have hplus : '-' ≠ '+' := by decide
  simp only [hplus, if_false, if_true, ParseUint]
  rw [← hcs, hp]
  simp [parseUintLoop]

theorem ParseInt_base10 (n : Int) (hlo : -2 ^ 63 ≤ n) (hhi : n < 2 ^ 63) :
    ParseInt (base10 n) = some n := by
  unfold base10
  by_cases hneg : n < 0
  · rw [if_pos hneg, ParseInt_neg_repr _ (by omega)]
    unfold applySign
    rw [if_neg (by simp), if_neg (by simp; omega)]
    simp only [if_true, Option.some.injEq]
    omega
  · rw [if_neg hneg, ParseInt_repr _ (by omega)]
    unfold applySign
    rw [if_neg (by simp; omega), if_neg (by simp)]
    simp only [Bool.false_eq_true, if_false, Option.some.injEq]
    omega

/-! ### The `#map` loop: later entries overwrite earlier ones -/

theorem mapLookup_mapInsert (m : MapExprType) (key : String) (v : Expr) (s : String) :
    mapLookup (mapInsert m key v) s = if s = key then some v else mapLookup m s := by
  induction m with
  | nil => simp [mapInsert, mapLookup]
  | cons hd tl ih =>
    obtain ⟨k, w⟩ := hd
    unfold mapInsert
    by_cases h1 : strLess key k = true
    · simp [h1, mapLookup]
    · by_cases h2 : key = k
      · subst h2
        simp only [h1, if_false, if_true, mapLookup, Bool.false_eq_true]
        by_cases h3 : s = key <;> simp [h3]
      · simp only [h1, h2, if_false, mapLookup, ih, Bool.false_eq_true]
        by_cases h3 : s = k
        · subst h3
          have : ¬ s = key := fun h => h2 h.symm
          simp [this]
        · simp [h3]

theorem concatLoop_ok (at_ : String → Result String) (h : ∀ k, ∃ t, at_ k = Result.ok t) :
    ∀ (ks : List String) (s : String), ∃ r, concatLoop at_ ks s = Result.ok r := by
  intro ks
  induction ks with
  | nil => intro s; exact ⟨s, rfl⟩
  | cons k ks ih =>
    intro s
    obtain ⟨t, ht⟩ := h k
    simp only [concatLoop, ht]
    exact ih _

mutual
theorem toString_ok_of_strLeaves :
    ∀ (x : AnyVal), strLeaves x = true → ∃ s, toString x = Result.ok s
  | AnyVal.str s, _ => ⟨s, by simp [toString]⟩
  | AnyVal.obj fields, h => by
    rw [toString]
    apply concatLoop_ok
    intro k
    rw [strLeaves] at h
    exact toStringAt_ok_of_strLeavesFields fields h k
  | AnyVal.null, h => by simp [strLeaves] at h
  | AnyVal.bool _, h => by simp [strLeaves] at h
  | AnyVal.num _, h => by simp [strLeaves] at h
  | AnyVal.arr _, h => by simp [strLeaves] at h
  | AnyVal.strMap _, h => by simp [strLeaves] at h
  | AnyVal.other _, h => by simp [strLeaves] at h
theorem toStringAt_ok_of_strLeavesFields :
    ∀ (fields : List (String × AnyVal)), strLeavesFields fields = true →
      ∀ k, ∃ s, toStringAt fields k = Result.ok s
  | [], _, k => ⟨"", by simp [toStringAt]⟩
  | (k0, v) :: rest, h, k => by
    rw [strLeavesFields, Bool.and_eq_true] at h
    rw [toStringAt]
    split
    · exact toString_ok_of_strLeaves v h.1
    · exact toStringAt_ok_of_strLeavesFields rest h.2 k
end


theorem entryLoop_pairs (pairs : List (AnyVal × AnyVal)) :
    ∀ (m0 : MapExprType),
      (∀ p ∈ pairs, strLeaves p.1 = true) →
      (∀ p ∈ pairs, ∃ e, toExpr p.2 = Result.ok e) →
      ∃ m, entryLoop (pairs.map fun p => AnyVal.arr [p.1, p.2]) m0 = Result.ok m ∧
        ∀ s e, mapLookup m s = some e ↔
          ((∃ pre k v post, pairs = pre ++ (k, v) :: post ∧ toString k = Result.ok s ∧
              toExpr v = Result.ok e ∧ ∀ p ∈ post, toString p.1 ≠ Result.ok s) ∨
            (mapLookup m0 s = some e ∧ ∀ p ∈ pairs, toString p.1 ≠ Result.ok s)) := by
  induction pairs with
  | nil =>
    intro m0 _ _
    refine ⟨m0, rfl, ?_⟩
    intro s e
    simp
  | cons hd tl ih =>
    intro m0 hk hv
    obtain ⟨k0, v0⟩ := hd
    obtain ⟨e0, he0⟩ := hv (k0, v0) (List.mem_cons_self _ _)
    obtain ⟨s0, hs0⟩ := toString_ok_of_strLeaves k0 (hk (k0, v0) (List.mem_cons_self _ _))
    obtain ⟨m, hm, hspec⟩ := ih (mapInsert m0 s0 e0)
      (fun p hp => hk p (List.mem_cons_of_mem _ hp))
      (fun p hp => hv p (List.mem_cons_of_mem _ hp))
    refine ⟨m, ?_, ?_⟩
    · simp only [List.map_cons]
      rw [entryLoop]
      simp only [he0, hs0]
      exact hm
    · intro s e
      rw [hspec s e, mapLookup_mapInsert]
      constructor
      · rintro (⟨pre, k, v, post, hp, h1, h2, h3⟩ | ⟨hl, hn⟩)
        · exact Or.inl ⟨(k0, v0) :: pre, k, v, post, by simp [hp], h1, h2, h3⟩
        · by_cases hs : s = s0
          · subst hs
            simp only [if_true, Option.some.injEq] at hl
            subst hl
            exact Or.inl ⟨[], k0, v0, tl, rfl, hs0, he0, hn⟩
          · simp only [hs, if_false] at hl
            refine Or.inr ⟨hl, ?_⟩
            intro p hp
            rcases List.mem_cons.mp hp with rfl | hp
            · simp only [hs0]
              intro h
              cases h
              exact hs rfl
            · exact hn p hp
      · rintro (⟨pre, k, v, post, hp, h1, h2, h3⟩ | ⟨hl, hn⟩)
        · cases pre with
          | nil =>
            simp only [List.nil_append, List.cons.injEq, Prod.mk.injEq] at hp
            obtain ⟨⟨rfl, rfl⟩, rfl⟩ := hp
            rw [hs0] at h1
            cases h1
            rw [he0] at h2
            cases h2
            exact Or.inr ⟨by simp, h3⟩
          | cons q pre =>
            simp only [List.cons_append, List.cons.injEq] at hp
            exact Or.inl ⟨pre, k, v, post, hp.2, h1, h2, h3⟩
        · have hne : s ≠ s0 := by
            rintro rfl
            exact hn (k0, v0) (List.mem_cons_self _ _) hs0
          exact Or.inr ⟨by simp [hne, hl], fun p hp => hn p (List.mem_cons_of_mem _ hp)⟩

theorem exists_last_key (pairs : List (AnyVal × AnyVal)) (s : String)
    (h : ∃ p ∈ pairs, toString p.1 = Result.ok s) :
    ∃ pre k v post, pairs = pre ++ (k, v) :: post ∧ toString k = Result.ok s ∧
      ∀ p ∈ post, toString p.1 ≠ Result.ok s := by
  induction pairs with
  | nil => simp at h
  | cons hd tl ih =>
    by_cases ht : ∃ p ∈ tl, toString p.1 = Result.ok s
    · obtain ⟨pre, k, v, post, hp, h1, h2⟩ := ih ht
      exact ⟨hd :: pre, k, v, post, by simp [hp], h1, h2⟩
    · obtain ⟨p, hp, hps⟩ := h
      rcases List.mem_cons.mp hp with rfl | hp
      · refine ⟨[], p.1, p.2, tl, rfl, hps, ?_⟩
        intro q hq hqs
        exact ht ⟨q, hq, hqs⟩
      · exact absurd ⟨p, hp, hps⟩ ht

/-! ### The element loop of arrays, `#tup` and `#set` -/

theorem elemLoop_ok_iff (xs : List AnyVal) :
    ∀ (acc l : ListExprType), elemLoop xs acc = Result.ok l ↔
      ∃ es, l = acc ++ es ∧ List.Forall₂ (fun x e => toExpr x = Result.ok e) xs es := by
  induction xs with
  | nil =>
    intro acc l
    rw [elemLoop]
    constructor
    · intro h
      cases h
      exact ⟨[], by simp, List.Forall₂.nil⟩
    · rintro ⟨es, rfl, h⟩
      cases h
      simp
  | cons x xs ih =>
    intro acc l
    rw [elemLoop]
    cases hx : toExpr x with
    | ok e =>
      simp only
      rw [ih]
      constructor
      · rintro ⟨es, rfl, h⟩
        exact ⟨e :: es, by simp, List.Forall₂.cons hx h⟩
      · rintro ⟨es, rfl, h⟩
        cases h with
        | cons h1 h2 =>
          rw [hx] at h1
          cases h1
          exact ⟨_, by simp, h2⟩
    | error err =>
      simp only
      constructor
      · intro h; cases h
      · rintro ⟨es, _, h⟩
        cases h with
        | cons h1 h2 => rw [hx] at h1; cases h1
    | panic p =>
      simp only
      constructor
      · intro h; cases h
      · rintro ⟨es, _, h⟩
        cases h with
        | cons h1 h2 => rw [hx] at h1; cases h1

theorem elemLoop_first_error (pre : List AnyVal) (x : AnyVal) (post : List AnyVal)
    (hpre : ∀ y ∈ pre, ∃ e, toExpr y = Result.ok e) (err : DecodeError)
    (hx : toExpr x = Result.error err) :
    ∀ acc, elemLoop (pre ++ x :: post) acc = Result.error err := by
  induction pre with
  | nil =>
    intro acc
    rw [List.nil_append, elemLoop, hx]
  | cons y pre ih =>
    intro acc
    obtain ⟨e, he⟩ := hpre y (List.mem_cons_self _ _)
    rw [List.cons_append, elemLoop, he]
    exact ih (fun z hz => hpre z (List.mem_cons_of_mem _ hz)) _

theorem elemLoop_first_panic (pre : List AnyVal) (x : AnyVal) (post : List AnyVal)
    (hpre : ∀ y ∈ pre, ∃ e, toExpr y = Result.ok e) (p : Panic)
    (hx : toExpr x = Result.panic p) :
    ∀ acc, elemLoop (pre ++ x :: post) acc = Result.panic p := by
  induction pre with
  | nil =>
    intro acc
    rw [List.nil_append, elemLoop, hx]
  | cons y pre ih =>
    intro acc
    obtain ⟨e, he⟩ := hpre y (List.mem_cons_self _ _)
    rw [List.cons_append, elemLoop, he]
    exact ih (fun z hz => hpre z (List.mem_cons_of_mem _ hz)) _

theorem forall₂_of_forall_ok (xs : List AnyVal) (h : ∀ x ∈ xs, ∃ e, toExpr x = Result.ok e) :
    ∃ es, List.Forall₂ (fun x e => toExpr x = Result.ok e) xs es := by
  induction xs with
  | nil => exact ⟨[], List.Forall₂.nil⟩
  | cons x xs ih =>
    obtain ⟨e, he⟩ := h x (List.mem_cons_self _ _)
    obtain ⟨es, hes⟩ := ih (fun y hy => h y (List.mem_cons_of_mem _ hy))
    exact ⟨e :: es, List.Forall₂.cons he hes⟩

theorem forall_ok_of_forall₂ (xs : List AnyVal) (es : List Expr)
    (h : List.Forall₂ (fun x e => toExpr x = Result.ok e) xs es) :
    ∀ x ∈ xs, ∃ e, toExpr x = Result.ok e := by
  induction h with
  | nil => intro x hx; simp at hx
  | cons h1 _ ih =>
    intro x hx
    rcases List.mem_cons.mp hx with rfl | hx
    · exact ⟨_, h1⟩
    · exact ih x hx

theorem toExpr_arr_ok_iff (xs : List AnyVal) (es : List Expr) :
    toExpr (AnyVal.arr xs) = Result.ok (Expr.list es) ↔
      List.Forall₂ (fun x e => toExpr x = Result.ok e) xs es := by
  rw [toExpr, Result.map_eq_ok]
  constructor
  · rintro ⟨l, hl, h⟩
    cases h
    obtain ⟨es1, rfl, hes⟩ := (elemLoop_ok_iff xs [] _).mp hl
    simpa using hes
  · intro hes
    exact ⟨es, (elemLoop_ok_iff xs [] es).mpr ⟨es, by simp, hes⟩, rfl⟩

theorem recordLoop_single (key : String) (v : AnyVal) :
    recordLoop [(key, v)] [] = (toExpr v).map fun e => [(key, e)] := by
  rw [recordLoop]
  cases toExpr v <;> simp [toString, recordLoop, mapInsert, Result.map]

/-! ### No nil inside a decoded `Expr` -/

theorem nonNilList_append (xs ys : List Expr) :
    nonNilList (xs ++ ys) = (nonNilList xs && nonNilList ys) := by
  induction xs with
  | nil => simp [nonNilList]
  | cons x xs ih => simp [nonNilList, ih, Bool.and_assoc]

theorem nonNilMap_mapInsert (m : MapExprType) (key : String) (e : Expr)
    (hm : nonNilMap m = true) (he : e.nonNil = true) : nonNilMap (mapInsert m key e) = true := by
  induction m with
  | nil => simp [mapInsert, nonNilMap, he]
  | cons hd tl ih =>
    obtain ⟨k, w⟩ := hd
    rw [nonNilMap, Bool.and_eq_true] at hm
    unfold mapInsert
    split
    · simp [nonNilMap, he, hm.1, hm.2]
    · split
      · simp [nonNilMap, he, hm.2]
      · simp [nonNilMap, hm.1, ih hm.2]

mutual
theorem toExpr_nonNil_rec : ∀ (j : AnyVal) (e : Expr), toExpr j = Result.ok e → e.nonNil = true
  | AnyVal.null, e, h => by simp [toExpr] at h
  | AnyVal.bool b, e, h => by
    simp only [toExpr, Result.ok.injEq] at h
    subst h
    rfl
  | AnyVal.str s, e, h => by
    simp only [toExpr, Result.ok.injEq] at h
    subst h
    rfl
  | AnyVal.num f, e, h => by
    simp only [toExpr, Result.ok.injEq] at h
    subst h
    rfl
  | AnyVal.strMap _, e, h => by simp [toExpr] at h
  | AnyVal.other _, e, h => by simp [toExpr] at h
  | AnyVal.arr xs, e, h => by
    rw [toExpr, Result.map_eq_ok] at h
    obtain ⟨l, hl, rfl⟩ := h
    rw [Expr.nonNil]
    exact elemLoop_nonNil xs [] l rfl hl
  | AnyVal.obj val, e, h => by
    rw [toExpr] at h
    split at h
    · next r _ hsome =>
      rw [Result.map_eq_ok] at h
      obtain ⟨m, hm, rfl⟩ := h
      rw [Expr.nonNil]
      exact mapAt_nonNil val "#map" r m hsome hm
    · split at h
      · next r _ hsome =>
        rw [Result.map_eq_ok] at h
        obtain ⟨l, hl, rfl⟩ := h
        rw [Expr.nonNil]
        exact elemsAt_nonNil val "#tup" r l hsome hl
      · split at h
        · next r _ hsome =>
          rw [Result.map_eq_ok] at h
          obtain ⟨l, hl, rfl⟩ := h
          rw [Expr.nonNil]
          exact elemsAt_nonNil val "#set" r l hsome hl
        · split at h
          · split at h
            · simp only [Result.ok.injEq] at h
              subst h
              rfl
            · cases h
          · rw [Result.map_eq_ok] at h
            obtain ⟨m, hm, rfl⟩ := h
            rw [Expr.nonNil]
            exact recordLoop_nonNil val [] m rfl hm
theorem elemLoop_nonNil : ∀ (xs : List AnyVal) (acc l : ListExprType),
    nonNilList acc = true → elemLoop xs acc = Result.ok l → nonNilList l = true
  | [], acc, l, hacc, h => by
    simp only [elemLoop, Result.ok.injEq] at h
    subst h
    exact hacc
  | x :: xs, acc, l, hacc, h => by
    rw [elemLoop] at h
    cases hx : toExpr x with
    | ok e =>
      rw [hx] at h
      simp only at h
      refine elemLoop_nonNil xs (acc ++ [e]) l ?_ h
      rw [nonNilList_append, hacc]
      simp [nonNilList, toExpr_nonNil_rec x e hx]
    | error err => rw [hx] at h; cases h
    | panic p => rw [hx] at h; cases h
theorem entryLoop_nonNil : ∀ (entries : List AnyVal) (acc m : MapExprType),
    nonNilMap acc = true → entryLoop entries acc = Result.ok m → nonNilMap m = true
  | [], acc, m, hacc, h => by
    simp only [entryLoop, Result.ok.injEq] at h
    subst h
    exact hacc
  | AnyVal.arr [] :: _, acc, m, hacc, h => by simp [entryLoop] at h
  | AnyVal.arr [_] :: _, acc, m, hacc, h => by simp [entryLoop] at h
  | AnyVal.arr (k :: v :: _) :: rest, acc, m, hacc, h => by
    rw [entryLoop] at h
    cases hv : toExpr v with
    | ok e =>
      rw [hv] at h
      simp only at h
      cases hk : toString k with
      | ok key =>
        rw [hk] at h
        simp only at h
        exact entryLoop_nonNil rest _ m (nonNilMap_mapInsert acc key e hacc (toExpr_nonNil_rec v e hv)) h
      | error err => rw [hk] at h; cases h
      | panic p => rw [hk] at h; cases h
    | error err => rw [hv] at h; cases h
    | panic p => rw [hv] at h; cases h
  | AnyVal.null :: _, acc, m, hacc, h => by simp [entryLoop] at h
  | AnyVal.bool _ :: _, acc, m, hacc, h => by simp [entryLoop] at h
  | AnyVal.str _ :: _, acc, m, hacc, h => by simp [entryLoop] at h
  | AnyVal.num _ :: _, acc, m, hacc, h => by simp [entryLoop] at h
  | AnyVal.obj _ :: _, acc, m, hacc, h => by simp [entryLoop] at h
  | AnyVal.strMap _ :: _, acc, m, hacc, h => by simp [entryLoop] at h
  | AnyVal.other _ :: _, acc, m, hacc, h => by simp [entryLoop] at h
theorem recordLoop_nonNil : ∀ (fs : List (String × AnyVal)) (acc m : MapExprType),
    nonNilMap acc = true → recordLoop fs acc = Result.ok m → nonNilMap m = true
  | [], acc, m, hacc, h => by
    simp only [recordLoop, Result.ok.injEq] at h
    subst h
    exact hacc
  | (key, v) :: rest, acc, m, hacc, h => by
    rw [recordLoop] at h
    cases hv : toExpr v with
    | ok e =>
      rw [hv] at h
      simp only [toString] at h
      exact recordLoop_nonNil rest _ m (nonNilMap_mapInsert acc key e hacc (toExpr_nonNil_rec v e hv)) h
    | error err => rw [hv] at h; cases h
    | panic p => rw [hv] at h; cases h
theorem mapAt_nonNil : ∀ (val : List (String × AnyVal)) (key : String)
    (r : Result MapExprType) (m : MapExprType),
    mapAt val key = some r → r = Result.ok m → nonNilMap m = true
  | [], key, r, m, h, _ => by simp [mapAt] at h
  | (k, AnyVal.arr c) :: rest, key, r, m, h, hr => by
    rw [mapAt] at h
    split at h
    · simp only [Option.some.injEq] at h
      subst h
      exact entryLoop_nonNil c [] m rfl hr
    · exact mapAt_nonNil rest key r m h hr
  | (k, AnyVal.null) :: rest, key, r, m, h, hr => by
    simp only [mapAt] at h
    split at h
    · cases h
    · exact mapAt_nonNil rest key r m h hr
  | (k, AnyVal.bool _) :: rest, key, r, m, h, hr => by
    simp only [mapAt] at h
    split at h
    · cases h
    · exact mapAt_nonNil rest key r m h hr
  | (k, AnyVal.str _) :: rest, key, r, m, h, hr => by
    simp only [mapAt] at h
    split at h
    · cases h
    · exact mapAt_nonNil rest key r m h hr
  | (k, AnyVal.num _) :: rest, key, r, m, h, hr => by
    simp only [mapAt] at h
    split at h
    · cases h
    · exact mapAt_nonNil rest key r m h hr
  | (k, AnyVal.obj _) :: rest, key, r, m, h, hr => by
    simp only [mapAt] at h
    split at h
    · cases h
    · exact mapAt_nonNil rest key r m h hr
  | (k, AnyVal.strMap _) :: rest, key, r, m, h, hr => by
    simp only [mapAt] at h
    split at h
    · cases h
    · exact mapAt_nonNil rest key r m h hr
  | (k, AnyVal.other _) :: rest, key, r, m, h, hr => by
    simp only [mapAt] at h
    split at h
    · cases h
    · exact mapAt_nonNil rest key r m h hr
theorem elemsAt_nonNil : ∀ (val : List (String × AnyVal)) (key : String)
    (r : Result ListExprType) (l : ListExprType),
    elemsAt val key = some r → r = Result.ok l → nonNilList l = true
  | [], key, r, l, h, _ => by simp [elemsAt] at h
  | (k, AnyVal.arr c) :: rest, key, r, l, h, hr => by
    rw [elemsAt] at h
    split at h
    · simp only [Option.some.injEq] at h
      subst h
      exact elemLoop_nonNil c [] l rfl hr
    · exact elemsAt_nonNil rest key r l h hr
  | (k, AnyVal.null) :: rest, key, r, l, h, hr => by
    simp only [elemsAt] at h
    split at h
    · cases h
    · exact elemsAt_nonNil rest key r l h hr
  | (k, AnyVal.bool _) :: rest, key, r, l, h, hr => by
    simp only [elemsAt] at h
    split at h
    · cases h
    · exact elemsAt_nonNil rest key r l h hr
  | (k, AnyVal.str _) :: rest, key, r, l, h, hr => by
    simp only [elemsAt] at h
    split at h
    · cases h
    · exact elemsAt_nonNil rest key r l h hr
  | (k, AnyVal.num _) :: rest, key, r, l, h, hr => by
    simp only [elemsAt] at h
    split at h
    · cases h
    · exact elemsAt_nonNil rest key r l h hr
  | (k, AnyVal.obj _) :: rest, key, r, l, h, hr => by
    simp only [elemsAt] at h
    split at h
    · cases h
    · exact elemsAt_nonNil rest key r l h hr
  | (k, AnyVal.strMap _) :: rest, key, r, l, h, hr => by
    simp only [elemsAt] at h
    split at h
    · cases h
    · exact elemsAt_nonNil rest key r l h hr
  | (k, AnyVal.other _) :: rest, key, r, l, h, hr => by
    simp only [elemsAt] at h
    split at h
    · cases h
    · exact elemsAt_nonNil rest key r l h hr
end

/-! ### The order on strings and the sorted key slice -/

theorem char_eq_of_toNat_eq (a b : Char) (h : a.toNat = b.toNat) : a = b := by
  rw [← Char.ofNat_toNat a, ← Char.ofNat_toNat b, h]

theorem ltChars_asymm : ∀ (a b : List Char), ltChars a b = true → ltChars b a = false
  | _, [], h => by simp [ltChars] at h
  | [], _ :: _, _ => by simp [ltChars]
  | a :: as, b :: bs, h => by
    rw [ltChars] at h
    rw [ltChars]
    by_cases h1 : a.toNat < b.toNat
    · have h2 : ¬ b.toNat < a.toNat := by omega
      simp [h1, h2]
    · by_cases h2 : b.toNat < a.toNat
      · simp [h1, h2] at h
      · simp only [h1, h2, if_false] at h ⊢
        exact ltChars_asymm as bs h

theorem ltChars_trans : ∀ (a b c : List Char),
    ltChars a b = true → ltChars b c = true → ltChars a c = true
  | _, [], _, h, _ => by simp [ltChars] at h
  | _, _ :: _, [], _, h => by simp [ltChars] at h
  | [], _ :: _, _ :: _, _, _ => by simp [ltChars]
  | a :: as, b :: bs, c :: cs, h1, h2 => by
    rw [ltChars] at h1 h2
    rw [ltChars]
    by_cases hab : a.toNat < b.toNat
    · by_cases hbc : b.toNat < c.toNat
      · have : a.toNat < c.toNat := by omega
        simp [this]
      · by_cases hcb : c.toNat < b.toNat
        · simp [hbc, hcb] at h2
        · have : a.toNat < c.toNat := by omega
          simp [this]
    · by_cases hba : b.toNat < a.toNat
      · simp [hab, hba] at h1
      · simp only [hab, hba, if_false] at h1
        by_cases hbc : b.toNat < c.toNat
        · have : a.toNat < c.toNat := by omega
          simp [this]
        · by_cases hcb : c.toNat < b.toNat
          · simp [hbc, hcb] at h2
          · simp only [hbc, hcb, if_false] at h2
            have e1 : ¬ a.toNat < c.toNat := by omega
            have e2 : ¬ c.toNat < a.toNat := by omega
            simp only [e1, e2, if_false]
            exact ltChars_trans as bs cs h1 h2

theorem ltChars_eq_of_not_lt : ∀ (a b : List Char),
    ltChars a b = false → ltChars b a = false → a = b
  | [], [], _, _ => rfl
  | [], _ :: _, h, _ => by simp [ltChars] at h
  | _ :: _, [], _, h => by simp [ltChars] at h
  | a :: as, b :: bs, h1, h2 => by
    rw [ltChars] at h1 h2
    by_cases hab : a.toNat < b.toNat
    · simp [hab] at h1
    · by_cases hba : b.toNat < a.toNat
      · simp [hba] at h2
      · simp only [hab, hba, if_false] at h1 h2
        have e : a = b := char_eq_of_toNat_eq a b (by omega)
        rw [e, ltChars_eq_of_not_lt as bs h1 h2]

theorem strLE_total (a b : String) : strLE a b ∨ strLE b a := by
  unfold strLE strLess
  cases h : ltChars b.data a.data with
  | false => exact Or.inl rfl
  | true => exact Or.inr (ltChars_asymm _ _ h)

theorem strLE_antisymm (a b : String) (h1 : strLE a b) (h2 : strLE b a) : a = b := by
  unfold strLE strLess at h1 h2
  exact String.ext (ltChars_eq_of_not_lt _ _ h2 h1)

theorem strLE_trans (a b c : String) (h1 : strLE a b) (h2 : strLE b c) : strLE a c := by
  unfold strLE strLess at *
  cases hca : ltChars c.data a.data with
  | false => rfl
  | true =>
    cases hab : ltChars a.data b.data with
    | true => rw [ltChars_trans _ _ _ hca hab] at h2; cases h2
    | false =>
      have e := ltChars_eq_of_not_lt _ _ hab h1
      rw [e] at hca
      rw [hca] at h2
      cases h2

theorem insertionSort_strLE_perm (l₁ l₂ : List String) (h : l₁.Perm l₂) :
    List.insertionSort strLE l₁ = List.insertionSort strLE l₂ := by
  haveI : IsTotal String strLE := ⟨strLE_total⟩
  haveI : IsTrans String strLE := ⟨strLE_trans⟩
  haveI : IsAntisymm String strLE := ⟨strLE_antisymm⟩
  exact List.eq_of_perm_of_sorted
    (((List.perm_insertionSort strLE l₁).trans h).trans (List.perm_insertionSort strLE l₂).symm)
    (List.sorted_insertionSort strLE l₁) (List.sorted_insertionSort strLE l₂)

theorem sortedKeys_perm (l₁ l₂ : List String) (h : l₁.Perm l₂) :
    sortedKeys l₁ = sortedKeys l₂ := by
  unfold sortedKeys
  apply insertionSort_strLE_perm
  rw [h.length_eq]
  exact List.Perm.append_left _ h

/-! ### The index expression does not depend on the enumeration order -/

theorem index_of_mem (fs : List (String × AnyVal)) (hn : (fs.map Prod.fst).Nodup)
    (k : String) (v : AnyVal) (h : (k, v) ∈ fs) : index fs k = v := by
  induction fs with
  | nil => simp at h
  | cons hd tl ih =>
    obtain ⟨k0, v0⟩ := hd
    rw [List.map_cons, List.nodup_cons] at hn
    rw [index]
    rcases List.mem_cons.mp h with heq | hmem
    · cases heq
      simp
    · have hne : k ≠ k0 := by
        rintro rfl
        exact hn.1 (List.mem_map.mpr ⟨(k, v), hmem, rfl⟩)
      rw [if_neg hne]
      exact ih hn.2 hmem

theorem index_of_not_mem (fs : List (String × AnyVal)) (k : String)
    (h : k ∉ fs.map Prod.fst) : index fs k = AnyVal.null := by
  induction fs with
  | nil => rfl
  | cons hd tl ih =>
    obtain ⟨k0, v0⟩ := hd
    simp only [List.map_cons, List.mem_cons, not_or] at h
    rw [index, if_neg h.1]
    exact ih h.2

theorem index_perm (fs gs : List (String × AnyVal)) (h : fs.Perm gs)
    (hn : (fs.map Prod.fst).Nodup) (k : String) : index fs k = index gs k := by
  have hn2 : (gs.map Prod.fst).Nodup := (h.map Prod.fst).nodup_iff.mp hn
  by_cases hk : k ∈ fs.map Prod.fst
  · obtain ⟨⟨k1, v⟩, hmem, rfl⟩ := List.mem_map.mp hk
    rw [index_of_mem fs hn _ v hmem, index_of_mem gs hn2 _ v (h.mem_iff.mp hmem)]
  · rw [index_of_not_mem fs k hk,
      index_of_not_mem gs k (fun hg => hk ((h.map Prod.fst).mem_iff.mpr hg))]

theorem indexStr_of_mem (fs : List (String × String)) (hn : (fs.map Prod.fst).Nodup)
    (k : String) (v : String) (h : (k, v) ∈ fs) : indexStr fs k = v := by
  induction fs with
  | nil => simp at h
  | cons hd tl ih =>
    obtain ⟨k0, v0⟩ := hd
    rw [List.map_cons, List.nodup_cons] at hn
    rw [indexStr]
    rcases List.mem_cons.mp h with heq | hmem
    · cases heq
      simp
    · have hne : k ≠ k0 := by
        rintro rfl
        exact hn.1 (List.mem_map.mpr ⟨(k, v), hmem, rfl⟩)
      rw [if_neg hne]
      exact ih hn.2 hmem

theorem indexStr_of_not_mem (fs : List (String × String)) (k : String)
    (h : k ∉ fs.map Prod.fst) : indexStr fs k = "" := by
  induction fs with
  | nil => rfl
  | cons hd tl ih =>
    obtain ⟨k0, v0⟩ := hd
    simp only [List.map_cons, List.mem_cons, not_or] at h
    rw [indexStr, if_neg h.1]
    exact ih h.2

theorem indexStr_perm (fs gs : List (String × String)) (h : fs.Perm gs)
    (hn : (fs.map Prod.fst).Nodup) (k : String) : indexStr fs k = indexStr gs k := by
  have hn2 : (gs.map Prod.fst).Nodup := (h.map Prod.fst).nodup_iff.mp hn
  by_cases hk : k ∈ fs.map Prod.fst
  · obtain ⟨⟨k1, v⟩, hmem, rfl⟩ := List.mem_map.mp hk
    rw [indexStr_of_mem fs hn _ v hmem, indexStr_of_mem gs hn2 _ v (h.mem_iff.mp hmem)]
  · rw [indexStr_of_not_mem fs k hk,
      indexStr_of_not_mem gs k (fun hg => hk ((h.map Prod.fst).mem_iff.mpr hg))]

theorem toStringAt_eq_index (fs : List (String × AnyVal)) (k : String) :
    toStringAt fs k = toString (index fs k) := by
  induction fs with
  | nil => rw [toStringAt, index, toString]
  | cons hd tl ih =>
    obtain ⟨k0, v0⟩ := hd
    rw [toStringAt, index]
    split
    · rfl
    · exact ih

/-! ### The field loop of `State.UnmarshalJSON` -/

theorem Expr_UnmarshalJSON_fresh_ok (unmarshal : String → Option AnyVal) (raw : String)
    (e : Expr) :
    Expr.UnmarshalJSON unmarshal Expr.nil raw = (Result.ok (), e) ↔
      ((raw = "null" ∨ raw = "\"\"") ∧ e = Expr.nil) ∨
      (raw ≠ "null" ∧ raw ≠ "\"\"" ∧ ∃ v, unmarshal raw = some v ∧ toExpr v = Result.ok e) := by
  unfold Expr.UnmarshalJSON
  by_cases h : raw = "null" ∨ raw = "\"\""
  · rw [if_pos h]
    constructor
    · intro he
      cases he
      exact Or.inl ⟨h, rfl⟩
    · rintro (⟨_, rfl⟩ | ⟨h1, h2, _⟩)
      · rfl
      · rcases h with h | h
        · exact absurd h h1
        · exact absurd h h2
  · rw [if_neg h]
    have h1 : raw ≠ "null" := fun hh => h (Or.inl hh)
    have h2 : raw ≠ "\"\"" := fun hh => h (Or.inr hh)
    cases hu : unmarshal raw with
    | none =>
      simp only
      constructor
      · intro he; cases he
      · rintro (⟨hh, _⟩ | ⟨_, _, v, hv, _⟩)
        · exact absurd hh h
        · cases hv
    | some v =>
      simp only
      cases hv : toExpr v with
      | ok e1 =>
        simp only
        constructor
        · intro he
          cases he
          exact Or.inr ⟨h1, h2, v, rfl, hv⟩
        · rintro (⟨hh, _⟩ | ⟨_, _, v1, hv1, he1⟩)
          · exact absurd hh h
          · cases hv1
            rw [hv] at he1
            cases he1
            rfl
      | error err =>
        simp only
        constructor
        · intro he; cases he
        · rintro (⟨hh, _⟩ | ⟨_, _, v1, hv1, he1⟩)
          · exact absurd hh h
          · cases hv1
            rw [hv] at he1
            cases he1
      | panic p =>
        simp only
        constructor
        · intro he; cases he
        · rintro (⟨hh, _⟩ | ⟨_, _, v1, hv1, he1⟩)
          · exact absurd hh h
          · cases hv1
            rw [hv] at he1
            cases he1

theorem stateLoop_ok_iff (unmarshalMeta : String → Option (Option (List (String × AnyVal))))
    (unmarshal : String → Option AnyVal) (objmap : List (String × String)) :
    ∀ meta0 values0,
      (∃ r, stateLoop unmarshalMeta unmarshal objmap meta0 values0 = Result.ok r) ↔
        (∀ raw, ("#meta", raw) ∈ objmap → ∃ m, unmarshalMeta raw = some m) ∧
        (∀ k raw, (k, raw) ∈ objmap → k ≠ "#meta" →
          ∃ e, Expr.UnmarshalJSON unmarshal Expr.nil raw = (Result.ok (), e)) := by
  induction objmap with
  | nil =>
    intro meta0 values0
    simp [stateLoop]
  | cons hd tl ih =>
    intro meta0 values0
    obtain ⟨k0, raw0⟩ := hd
    rw [stateLoop]
    by_cases hk : k0 = "#meta"
    · subst hk
      rw [if_pos rfl]
      cases hm : unmarshalMeta raw0 with
      | none =>
        simp only
        constructor
        · rintro ⟨r, hr⟩; cases hr
        · rintro ⟨h1, _⟩
          obtain ⟨m, hm1⟩ := h1 raw0 (List.mem_cons_self _ _)
          rw [hm] at hm1
          cases hm1
      | some m1 =>
        simp only
        rw [ih]
        constructor
        · rintro ⟨h1, h2⟩
          refine ⟨?_, ?_⟩
          · intro raw hraw
            rcases List.mem_cons.mp hraw with heq | hmem
            · cases heq
              exact ⟨m1, hm⟩
            · exact h1 raw hmem
          · intro k raw hraw hne
            rcases List.mem_cons.mp hraw with heq | hmem
            · cases heq
              exact absurd rfl hne
            · exact h2 k raw hmem hne
        · rintro ⟨h1, h2⟩
          exact ⟨fun raw hraw => h1 raw (List.mem_cons_of_mem _ hraw),
            fun k raw hraw hne => h2 k raw (List.mem_cons_of_mem _ hraw) hne⟩
    · rw [if_neg hk]
      rcases hu : Expr.UnmarshalJSON unmarshal Expr.nil raw0 with ⟨out, e0⟩
      cases out with
      | ok u =>
        simp only
        rw [ih]
        constructor
        · rintro ⟨h1, h2⟩
          refine ⟨?_, ?_⟩
          · intro raw hraw
            rcases List.mem_cons.mp hraw with heq | hmem
            · cases heq
              exact absurd rfl hk
            · exact h1 raw hmem
          · intro k raw hraw hne
            rcases List.mem_cons.mp hraw with heq | hmem
            · cases heq
              exact ⟨e0, hu⟩
            · exact h2 k raw hmem hne
        · rintro ⟨h1, h2⟩
          exact ⟨fun raw hraw => h1 raw (List.mem_cons_of_mem _ hraw),
            fun k raw hraw hne => h2 k raw (List.mem_cons_of_mem _ hraw) hne⟩
      | error err =>
        simp only
        constructor
        · rintro ⟨r, hr⟩; cases hr
        · rintro ⟨_, h2⟩
          obtain ⟨e, he⟩ := h2 k0 raw0 (List.mem_cons_self _ _) hk
          rw [hu] at he
          cases he
      | panic p =>
        simp only
        constructor
        · rintro ⟨r, hr⟩; cases hr
        · rintro ⟨_, h2⟩
          obtain ⟨e, he⟩ := h2 k0 raw0 (List.mem_cons_self _ _) hk
          rw [hu] at he
          cases he

theorem stateLoop_result (unmarshalMeta : String → Option (Option (List (String × AnyVal))))
    (unmarshal : String → Option AnyVal) (objmap : List (String × String)) :
    ∀ meta0 values0 meta values, (objmap.map Prod.fst).Nodup →
      stateLoop unmarshalMeta unmarshal objmap meta0 values0 = Result.ok (meta, values) →
      (∀ k e, mapLookup values k = some e ↔
        (k ≠ "#meta" ∧ ∃ raw, (k, raw) ∈ objmap ∧
          Expr.UnmarshalJSON unmarshal Expr.nil raw = (Result.ok (), e)) ∨
        (mapLookup values0 k = some e ∧ (k = "#meta" ∨ k ∉ objmap.map Prod.fst))) ∧
      (∀ raw, ("#meta", raw) ∈ objmap → unmarshalMeta raw = some meta) ∧
      ("#meta" ∉ objmap.map Prod.fst → meta = meta0) := by
  induction objmap with
  | nil =>
    intro meta0 values0 meta values _ h
    simp only [stateLoop, Result.ok.injEq, Prod.mk.injEq] at h
    obtain ⟨rfl, rfl⟩ := h
    simp
  | cons hd tl ih =>
    intro meta0 values0 meta values hn h
    obtain ⟨k0, raw0⟩ := hd
    rw [List.map_cons, List.nodup_cons] at hn
    rw [stateLoop] at h
    by_cases hk : k0 = "#meta"
    · subst hk
      rw [if_pos rfl] at h
      cases hm : unmarshalMeta raw0 with
      | none => rw [hm] at h; cases h
      | some m1 =>
        rw [hm] at h
        simp only at h
        obtain ⟨hv, hm1, hm2⟩ := ih m1 values0 meta values hn.2 h
        have hmeta : meta = m1 := hm2 hn.1
        refine ⟨?_, ?_, ?_⟩
        · intro k e
          rw [hv k e]
          constructor
          · rintro (⟨hne, raw, hraw, hu⟩ | ⟨hl, hor⟩)
            · exact Or.inl ⟨hne, raw, List.mem_cons_of_mem _ hraw, hu⟩
            · refine Or.inr ⟨hl, ?_⟩
              rcases hor with hor | hor
              · exact Or.inl hor
              · by_cases hkm : k = "#meta"
                · exact Or.inl hkm
                · exact Or.inr (by simp [hkm, hor])
          · rintro (⟨hne, raw, hraw, hu⟩ | ⟨hl, hor⟩)
            · rcases List.mem_cons.mp hraw with heq | hmem
              · cases heq
                exact absurd rfl hne
              · exact Or.inl ⟨hne, raw, hmem, hu⟩
            · refine Or.inr ⟨hl, ?_⟩
              rcases hor with hor | hor
              · exact Or.inl hor
              · exact Or.inr (fun hh => hor (List.mem_cons_of_mem _ hh))
        · intro raw hraw
          rcases List.mem_cons.mp hraw with heq | hmem
          · cases heq
            rw [hm, hmeta]
          · exact hm1 raw hmem
        · intro hnot
          exact absurd (List.mem_cons_self _ _) hnot
    · rw [if_neg hk] at h
      rcases hu : Expr.UnmarshalJSON unmarshal Expr.nil raw0 with ⟨out, e0⟩
      rw [hu] at h
      cases out with
      | ok u =>
        simp only at h
        cases u
        obtain ⟨hv, hm1, hm2⟩ := ih meta0 (mapInsert values0 k0 e0) meta values hn.2 h
        refine ⟨?_, ?_, ?_⟩
        · intro k e
          rw [hv k e, mapLookup_mapInsert]
          constructor
          · rintro (⟨hne, raw, hraw, hu1⟩ | ⟨hl, hor⟩)
            · exact Or.inl ⟨hne, raw, List.mem_cons_of_mem _ hraw, hu1⟩
            · by_cases hkk : k = k0
              · subst hkk
                simp only [if_true, Option.some.injEq] at hl
                subst hl
                exact Or.inl ⟨hk, raw0, List.mem_cons_self _ _, hu⟩
              · simp only [hkk, if_false] at hl
                refine Or.inr ⟨hl, ?_⟩
                rcases hor with hor | hor
                · exact Or.inl hor
                · exact Or.inr (by simp [hkk, hor])
          · rintro (⟨hne, raw, hraw, hu1⟩ | ⟨hl, hor⟩)
            · rcases List.mem_cons.mp hraw with heq | hmem
              · cases heq
                rw [hu] at hu1
                cases hu1
                refine Or.inr ⟨by simp, Or.inr hn.1⟩
              · exact Or.inl ⟨hne, raw, hmem, hu1⟩
            · rcases hor with hor | hor
              · subst hor
                have hne : ¬ "#meta" = k0 := fun hh => hk hh.symm
                exact Or.inr ⟨by simp [hne, hl], Or.inl rfl⟩
              · have hne : ¬ k = k0 := fun hh => hor (by simp [hh])
                exact Or.inr ⟨by simp [hne, hl],
                  Or.inr (fun hh => hor (List.mem_cons_of_mem _ hh))⟩
        · intro raw hraw
          rcases List.mem_cons.mp hraw with heq | hmem
          · cases heq
            exact absurd rfl hk
          · exact hm1 raw hmem
        · intro hnot
          exact hm2 (fun hh => hnot (List.mem_cons_of_mem _ hh))
      | error err => simp only at h; cases h
      | panic p => simp only at h; cases h

/-! ### Output maps are canonical: sorted keys, one entry per key -/

theorem strLess_irrefl (a : String) : strLess a a = false := by
  unfold strLess
  cases h : ltChars a.data a.data with
  | false => rfl
  | true => rw [ltChars_asymm _ _ h] at h; cases h

theorem strLess_trans (a b c : String) (h1 : strLess a b = true) (h2 : strLess b c = true) :
    strLess a c = true :=
  ltChars_trans _ _ _ h1 h2

theorem strLess_of_not (a b : String) (h1 : strLess a b = false) (h2 : a ≠ b) :
    strLess b a = true := by
  unfold strLess at *
  cases h : ltChars b.data a.data with
  | true => rfl
  | false => exact absurd (String.ext (ltChars_eq_of_not_lt _ _ h1 h)) h2

theorem mem_mapInsert (m : MapExprType) (key : String) (e : Expr) (p : String × Expr)
    (h : p ∈ mapInsert m key e) : p = (key, e) ∨ p ∈ m := by
  induction m with
  | nil =>
    simp only [mapInsert, List.mem_singleton] at h
    exact Or.inl h
  | cons hd tl ih =>
    obtain ⟨k, w⟩ := hd
    unfold mapInsert at h
    split at h
    · rcases List.mem_cons.mp h with h | h
      · exact Or.inl h
      · exact Or.inr h
    · split at h
      · rcases List.mem_cons.mp h with h | h
        · exact Or.inl h
        · exact Or.inr (List.mem_cons_of_mem _ h)
      · rcases List.mem_cons.mp h with h | h
        · exact Or.inr (h ▸ List.mem_cons_self _ _)
        · rcases ih h with h | h
          · exact Or.inl h
          · exact Or.inr (List.mem_cons_of_mem _ h)

theorem keysSorted_mapInsert (m : MapExprType) (key : String) (e : Expr)
    (hm : keysSorted m) : keysSorted (mapInsert m key e) := by
  unfold keysSorted at *
  induction m with
  | nil => simp [mapInsert]
  | cons hd tl ih =>
    obtain ⟨k, w⟩ := hd
    rw [List.pairwise_cons] at hm
    unfold mapInsert
    by_cases h1 : strLess key k = true
    · rw [if_pos h1, List.pairwise_cons]
      refine ⟨?_, List.pairwise_cons.mpr hm⟩
      intro p hp
      rcases List.mem_cons.mp hp with rfl | hp
      · exact h1
      · exact strLess_trans _ _ _ h1 (hm.1 p hp)
    · rw [if_neg h1]
      by_cases h2 : key = k
      · subst h2
        rw [if_pos rfl, List.pairwise_cons]
        exact ⟨hm.1, hm.2⟩
      · rw [if_neg h2, List.pairwise_cons]
        refine ⟨?_, ih hm.2⟩
        intro p hp
        rcases mem_mapInsert tl key e p hp with rfl | hp
        · exact strLess_of_not _ _ (by simpa using h1) h2
        · exact hm.1 p hp

theorem mem_of_mapLookup (m : MapExprType) (s : String) (e : Expr)
    (h : mapLookup m s = some e) : (s, e) ∈ m := by
  induction m with
  | nil => simp [mapLookup] at h
  | cons hd tl ih =>
    obtain ⟨k, w⟩ := hd
    rw [mapLookup] at h
    split at h
    · next heq =>
      cases h
      rw [heq]
      exact List.mem_cons_self _ _
    · exact List.mem_cons_of_mem _ (ih h)

theorem mapLookup_tail_none (k : String) (w : Expr) (t : MapExprType)
    (h : keysSorted ((k, w) :: t)) : mapLookup t k = none := by
  unfold keysSorted at h
  rw [List.pairwise_cons] at h
  cases hl : mapLookup t k with
  | none => rfl
  | some e =>
    have := h.1 _ (mem_of_mapLookup t k e hl)
    rw [strLess_irrefl] at this
    cases this

theorem keysSorted_ext (m1 : MapExprType) :
    ∀ (m2 : MapExprType), keysSorted m1 → keysSorted m2 →
      (∀ s, mapLookup m1 s = mapLookup m2 s) → m1 = m2 := by
  induction m1 with
  | nil =>
    intro m2 _ _ h
    cases m2 with
    | nil => rfl
    | cons hd tl =>
      obtain ⟨k, w⟩ := hd
      have := h k
      simp [mapLookup] at this
  | cons hd1 t1 ih =>
    intro m2 hs1 hs2 h
    obtain ⟨k1, v1⟩ := hd1
    cases m2 with
    | nil =>
      have := h k1
      simp [mapLookup] at this
    | cons hd2 t2 =>
      obtain ⟨k2, v2⟩ := hd2
      have hk : k1 = k2 := by
        by_contra hne
        have e1 := h k1
        have e2 := h k2
        have hne2 : ¬ k2 = k1 := fun hh => hne hh.symm
        simp only [mapLookup, if_true, hne, hne2, if_false] at e1 e2
        have m1 := mem_of_mapLookup t2 k1 v1 e1.symm
        have m2 := mem_of_mapLookup t1 k2 v2 e2
        have l1 := (List.pairwise_cons.mp hs2).1 _ m1
        have l2 := (List.pairwise_cons.mp hs1).1 _ m2
        have := ltChars_asymm _ _ l1
        unfold strLess at l2
        rw [l2] at this
        cases this
      subst hk
      have hv : v1 = v2 := by
        have e1 := h k1
        simpa [mapLookup] using e1
      subst hv
      have htl : t1 = t2 := by
        apply ih t2 (List.pairwise_cons.mp hs1).2 (List.pairwise_cons.mp hs2).2
        intro s
        by_cases hs : s = k1
        · subst hs
          rw [mapLookup_tail_none _ _ _ hs1, mapLookup_tail_none _ _ _ hs2]
        · have e := h s
          simpa [mapLookup, hs] using e
      rw [htl]

theorem mapInsert_comm (m : MapExprType) (hm : keysSorted m) (k1 k2 : String) (e1 e2 : Expr)
    (hne : k1 ≠ k2) :
    mapInsert (mapInsert m k1 e1) k2 e2 = mapInsert (mapInsert m k2 e2) k1 e1 := by
  apply keysSorted_ext
  · exact keysSorted_mapInsert _ _ _ (keysSorted_mapInsert _ _ _ hm)
  · exact keysSorted_mapInsert _ _ _ (keysSorted_mapInsert _ _ _ hm)
  · intro s
    simp only [mapLookup_mapInsert]
    by_cases h1 : s = k1
    · subst h1
      simp [hne]
    · simp [h1]

/-! ### Two enumerations of one value -/

theorem sameFields_cons (k : String) (v : AnyVal) (fs gs : List (String × AnyVal)) :
    sameFields ((k, v) :: fs) gs ↔
      ∃ w gs1 gs2, gs = gs1 ++ (k, w) :: gs2 ∧ sameValue v w ∧ sameFields fs (gs1 ++ gs2) := by
  rw [sameFields]

theorem sameList_cons (x : AnyVal) (xs ys : List AnyVal) :
    sameList (x :: xs) ys ↔ ∃ y ys1, ys = y :: ys1 ∧ sameValue x y ∧ sameList xs ys1 := by
  rw [sameList]

theorem wfKeysList_iff (xs : List AnyVal) :
    wfKeysList xs = true ↔ ∀ x ∈ xs, wfKeys x = true := by
  induction xs with
  | nil => simp [wfKeysList]
  | cons x xs ih => simp [wfKeysList, ih]

theorem wfKeysFields_iff (fs : List (String × AnyVal)) :
    wfKeysFields fs = true ↔ ∀ p ∈ fs, wfKeys p.2 = true := by
  induction fs with
  | nil => simp [wfKeysFields]
  | cons hd tl ih =>
    obtain ⟨k, v⟩ := hd
    simp [wfKeysFields, ih]

theorem wfKeys_obj (fs : List (String × AnyVal)) :
    wfKeys (AnyVal.obj fs) = true ↔
      (fs.map Prod.fst).Nodup ∧ ∀ p ∈ fs, wfKeys p.2 = true := by
  rw [wfKeys, Bool.and_eq_true, wfKeysFields_iff, decide_eq_true_eq]

theorem wfKeys_arr (xs : List AnyVal) :
    wfKeys (AnyVal.arr xs) = true ↔ ∀ x ∈ xs, wfKeys x = true := by
  rw [wfKeys, wfKeysList_iff]

theorem sameFields_length (fs : List (String × AnyVal)) :
    ∀ gs, sameFields fs gs → gs.length = fs.length := by
  induction fs with
  | nil =>
    intro gs h
    rw [sameFields] at h
    rw [h]
  | cons hd tl ih =>
    intro gs h
    obtain ⟨k, v⟩ := hd
    obtain ⟨w, gs1, gs2, rfl, _, h2⟩ := (sameFields_cons k v tl gs).mp h
    have := ih _ h2
    simp only [List.length_append, List.length_cons] at this ⊢
    omega

theorem sameFields_keys_perm (fs : List (String × AnyVal)) :
    ∀ gs, sameFields fs gs → (fs.map Prod.fst).Perm (gs.map Prod.fst) := by
  induction fs with
  | nil =>
    intro gs h
    rw [sameFields] at h
    rw [h]
  | cons hd tl ih =>
    intro gs h
    obtain ⟨k, v⟩ := hd
    obtain ⟨w, gs1, gs2, rfl, _, h2⟩ := (sameFields_cons k v tl gs).mp h
    have := ih _ h2
    simp only [List.map_cons, List.map_append] at this ⊢
    exact (List.Perm.cons k this).trans List.perm_middle.symm

theorem index_append_of_not_mem (gs1 r : List (String × AnyVal)) (k : String)
    (h : k ∉ gs1.map Prod.fst) : index (gs1 ++ r) k = index r k := by
  induction gs1 with
  | nil => rfl
  | cons hd tl ih =>
    obtain ⟨k0, v0⟩ := hd
    simp only [List.map_cons, List.mem_cons, not_or] at h
    rw [List.cons_append, index, if_neg h.1]
    exact ih h.2

theorem index_append_skip (gs1 gs2 : List (String × AnyVal)) (k0 : String) (w : AnyVal)
    (k : String) (h : k ≠ k0) : index (gs1 ++ (k0, w) :: gs2) k = index (gs1 ++ gs2) k := by
  induction gs1 with
  | nil => rw [List.nil_append, List.nil_append, index, if_neg h]
  | cons hd tl ih =>
    obtain ⟨k1, v1⟩ := hd
    rw [List.cons_append, List.cons_append, index, index, ih]

theorem nodup_middle (gs1 gs2 : List (String × AnyVal)) (k : String) (w : AnyVal)
    (h : ((gs1 ++ (k, w) :: gs2).map Prod.fst).Nodup) :
    k ∉ gs1.map Prod.fst ∧ k ∉ gs2.map Prod.fst ∧ ((gs1 ++ gs2).map Prod.fst).Nodup := by
  have hp : ((gs1 ++ (k, w) :: gs2).map Prod.fst).Perm (k :: (gs1 ++ gs2).map Prod.fst) := by
    simp only [List.map_append, List.map_cons]
    exact List.perm_middle
  have h2 := hp.nodup_iff.mp h
  rw [List.nodup_cons] at h2
  simp only [List.map_append, List.mem_append, not_or] at h2
  exact ⟨h2.1.1, h2.1.2, by simpa using h2.2⟩

theorem sameValue_index (fs : List (String × AnyVal)) :
    ∀ gs, sameFields fs gs → (gs.map Prod.fst).Nodup →
      ∀ k, sameValue (index fs k) (index gs k) := by
  induction fs with
  | nil =>
    intro gs h _ k
    rw [sameFields] at h
    rw [h, index, sameValue]
  | cons hd tl ih =>
    intro gs h hn k
    obtain ⟨k0, v⟩ := hd
    obtain ⟨w, gs1, gs2, rfl, h1, h2⟩ := (sameFields_cons k0 v tl gs).mp h
    obtain ⟨hn1, _, hn3⟩ := nodup_middle gs1 gs2 k0 w hn
    rw [index]
    by_cases hk : k = k0
    · subst hk
      rw [if_pos rfl, index_append_of_not_mem gs1 _ k hn1, index, if_pos rfl]
      exact h1
    · rw [if_neg hk, index_append_skip gs1 gs2 k0 w k hk]
      exact ih _ h2 hn3 k

theorem index_mem_or_null (fs : List (String × AnyVal)) (k : String) :
    index fs k = AnyVal.null ∨ (k, index fs k) ∈ fs := by
  induction fs with
  | nil => exact Or.inl rfl
  | cons hd tl ih =>
    obtain ⟨k0, v⟩ := hd
    rw [index]
    split
    · next h => exact Or.inr (h ▸ List.mem_cons_self _ _)
    · rcases ih with h | h
      · exact Or.inl h
      · exact Or.inr (List.mem_cons_of_mem _ h)

theorem sizeOf_field_lt (fs : List (String × AnyVal)) (k : String) (v : AnyVal)
    (h : (k, v) ∈ fs) : sizeOf v < sizeOf (AnyVal.obj fs) := by
  have h1 := List.sizeOf_lt_of_mem h
  simp only [AnyVal.obj.sizeOf_spec, Prod.mk.sizeOf_spec] at h1 ⊢
  omega

theorem sizeOf_elem_lt (xs : List AnyVal) (x : AnyVal) (h : x ∈ xs) :
    sizeOf x < sizeOf (AnyVal.arr xs) := by
  have h1 := List.sizeOf_lt_of_mem h
  simp only [AnyVal.arr.sizeOf_spec]
  omega

theorem wfKeys_index (gs : List (String × AnyVal)) (h : ∀ p ∈ gs, wfKeys p.2 = true)
    (k : String) : wfKeys (index gs k) = true := by
  rcases index_mem_or_null gs k with h1 | h1
  · rw [h1]; rfl
  · exact h _ h1

theorem toString_sameValue_bounded (n : Nat) :
    ∀ (j : AnyVal), sizeOf j < n → ∀ j', sameValue j j' → wfKeys j' = true →
      toString j = toString j' := by
  induction n with
  | zero => intro j h; omega
  | succ n ih =>
    intro j hsize j' hsame hwf
    cases j with
    | null => rw [sameValue] at hsame; rw [hsame]
    | bool b => rw [sameValue] at hsame; rw [hsame]
    | str s => rw [sameValue] at hsame; rw [hsame]
    | num f => rw [sameValue] at hsame; rw [hsame]
    | strMap m => rw [sameValue] at hsame; rw [hsame]
    | other t => rw [sameValue] at hsame; rw [hsame]
    | arr xs =>
      rw [sameValue] at hsame
      obtain ⟨ys, rfl, _⟩ := hsame
      rw [toString, toString]
    | obj fs =>
      rw [sameValue] at hsame
      obtain ⟨gs, rfl, hsf⟩ := hsame
      obtain ⟨hnodup, hvals⟩ := (wfKeys_obj gs).mp hwf
      rw [toString, toString, sortedKeys_perm _ _ (sameFields_keys_perm fs gs hsf)]
      congr 1
      funext k
      rw [toStringAt_eq_index, toStringAt_eq_index]
      have hsv := sameValue_index fs gs hsf hnodup k
      rcases index_mem_or_null fs k with h1 | h1
      · rw [h1] at hsv ⊢
        rw [sameValue] at hsv
        rw [hsv]
      · have hlt := sizeOf_field_lt fs k _ h1
        exact ih _ (by omega) _ hsv (wfKeys_index gs hvals k)

theorem toString_sameValue (j j' : AnyVal) (h : sameValue j j') (hwf : wfKeys j' = true) :
    toString j = toString j' :=
  toString_sameValue_bounded (sizeOf j + 1) j (Nat.lt_succ_self _) j' h hwf

/-! ### The loops of `toExpr` on two enumerations of one value -/

theorem okValue_map {α β : Type} (f : α → β) (r : Result α) :
    (r.map f).okValue = r.okValue.map f := by
  cases r <;> rfl

theorem okValue_eq_some {α : Type} (r : Result α) (a : α) :
    r.okValue = some a ↔ r = Result.ok a := by
  cases r <;> simp [Result.okValue]

theorem elemLoop_okValue_cons (x : AnyVal) (xs : List AnyVal) (acc : ListExprType) :
    (elemLoop (x :: xs) acc).okValue =
      (toExpr x).okValue.bind fun e => (elemLoop xs (acc ++ [e])).okValue := by
  rw [elemLoop]
  cases toExpr x <;> rfl

theorem recordLoop_okValue_cons (k : String) (v : AnyVal) (rest : List (String × AnyVal))
    (acc : MapExprType) :
    (recordLoop ((k, v) :: rest) acc).okValue =
      (toExpr v).okValue.bind fun e => (recordLoop rest (mapInsert acc k e)).okValue := by
  rw [recordLoop]
  cases toExpr v <;> simp [toString, Result.okValue]

theorem entryLoop_okValue_cons (k v : AnyVal) (more rest : List AnyVal) (acc : MapExprType) :
    (entryLoop (AnyVal.arr (k :: v :: more) :: rest) acc).okValue =
      (toExpr v).okValue.bind fun e =>
        (toString k).okValue.bind fun key => (entryLoop rest (mapInsert acc key e)).okValue := by
  rw [entryLoop]
  cases toExpr v with
  | ok e => cases toString k <;> simp [Result.okValue]
  | error err => rfl
  | panic p => rfl

theorem elemLoop_congr (xs : List AnyVal) :
    ∀ ys, sameList xs ys →
      (∀ x ∈ xs, ∀ y, sameValue x y → wfKeys y = true →
        (toExpr x).okValue = (toExpr y).okValue) →
      (∀ y ∈ ys, wfKeys y = true) →
      ∀ acc, (elemLoop xs acc).okValue = (elemLoop ys acc).okValue := by
  induction xs with
  | nil =>
    intro ys h _ _ acc
    rw [sameList] at h
    rw [h]
  | cons x xs ih =>
    intro ys h hP hwf acc
    obtain ⟨y, ys1, rfl, h1, h2⟩ := (sameList_cons x xs ys).mp h
    rw [elemLoop_okValue_cons, elemLoop_okValue_cons,
      hP x (List.mem_cons_self _ _) y h1 (hwf y (List.mem_cons_self _ _))]
    congr 1
    funext e
    exact ih ys1 h2 (fun x hx => hP x (List.mem_cons_of_mem _ hx))
      (fun y hy => hwf y (List.mem_cons_of_mem _ hy)) _

theorem entryLoop_congr (xs : List AnyVal) :
    ∀ ys, sameList xs ys →
      (∀ x ∈ xs, ∀ k v more, x = AnyVal.arr (k :: v :: more) →
        ∀ w, sameValue v w → wfKeys w = true → (toExpr v).okValue = (toExpr w).okValue) →
      (∀ y ∈ ys, wfKeys y = true) →
      ∀ acc, (entryLoop xs acc).okValue = (entryLoop ys acc).okValue := by
  induction xs with
  | nil =>
    intro ys h _ _ acc
    rw [sameList] at h
    rw [h]
  | cons x xs ih =>
    intro ys h hP hwf acc
    obtain ⟨y, ys1, rfl, h1, h2⟩ := (sameList_cons x xs ys).mp h
    have hwfy := hwf y (List.mem_cons_self _ _)
    have hrest := ih ys1 h2 (fun x hx => hP x (List.mem_cons_of_mem _ hx))
      (fun y hy => hwf y (List.mem_cons_of_mem _ hy))
    cases x with
    | null => rw [sameValue] at h1; subst h1; simp [entryLoop]
    | bool b => rw [sameValue] at h1; subst h1; simp [entryLoop]
    | str s => rw [sameValue] at h1; subst h1; simp [entryLoop]
    | num f => rw [sameValue] at h1; subst h1; simp [entryLoop]
    | strMap m => rw [sameValue] at h1; subst h1; simp [entryLoop]
    | other t => rw [sameValue] at h1; subst h1; simp [entryLoop]
    | obj fs =>
      rw [sameValue] at h1
      obtain ⟨gs, rfl, _⟩ := h1
      simp [entryLoop, Result.okValue]
    | arr pair =>
      rw [sameValue] at h1
      obtain ⟨pair', rfl, hp⟩ := h1
      match pair, hp with
      | [], hp =>
        rw [sameList] at hp
        subst hp
        simp [entryLoop]
      | [a], hp =>
        obtain ⟨a', t, rfl, _, ht⟩ := (sameList_cons a [] pair').mp hp
        rw [sameList] at ht
        subst ht
        simp [entryLoop]
      | k :: v :: more, hp =>
        obtain ⟨k', t, rfl, hk, ht⟩ := (sameList_cons k (v :: more) pair').mp hp
        obtain ⟨v', more', rfl, hv, _⟩ := (sameList_cons v more t).mp ht
        have hwfp := (wfKeys_arr _).mp hwfy
        have hwk : wfKeys k' = true := hwfp k' (by simp)
        have hwv : wfKeys v' = true := hwfp v' (by simp)
        rw [entryLoop_okValue_cons, entryLoop_okValue_cons, toString_sameValue k k' hk hwk,
          hP _ (List.mem_cons_self _ _) k v more rfl v' hv hwv]
        congr 1
        funext e
        congr 1
        funext key
        exact hrest _

theorem recordLoop_move_front (gs1 : List (String × AnyVal)) (k : String) (w : AnyVal)
    (gs2 : List (String × AnyVal)) (hk : k ∉ gs1.map Prod.fst) :
    ∀ acc, keysSorted acc →
      (recordLoop (gs1 ++ (k, w) :: gs2) acc).okValue
        = (recordLoop ((k, w) :: (gs1 ++ gs2)) acc).okValue := by
  induction gs1 with
  | nil => intro acc _; rfl
  | cons hd tl ih =>
    intro acc hacc
    obtain ⟨k1, w1⟩ := hd
    simp only [List.map_cons, List.mem_cons, not_or] at hk
    rw [List.cons_append, List.cons_append]
    simp only [recordLoop_okValue_cons]
    cases hw1 : (toExpr w1).okValue with
    | none =>
      cases (toExpr w).okValue <;> rfl
    | some e1 =>
      simp only [Option.some_bind]
      rw [ih hk.2 _ (keysSorted_mapInsert _ _ _ hacc), recordLoop_okValue_cons]
      cases hw : (toExpr w).okValue with
      | none => rfl
      | some e =>
        simp only [Option.some_bind]
        rw [mapInsert_comm acc hacc k1 k e1 e (fun h => hk.1 h.symm)]

theorem recordLoop_congr (fs : List (String × AnyVal)) :
    ∀ gs, sameFields fs gs →
      (∀ p ∈ fs, ∀ w, sameValue p.2 w → wfKeys w = true →
        (toExpr p.2).okValue = (toExpr w).okValue) →
      (gs.map Prod.fst).Nodup → (∀ p ∈ gs, wfKeys p.2 = true) →
      ∀ acc, keysSorted acc → (recordLoop fs acc).okValue = (recordLoop gs acc).okValue := by
  induction fs with
  | nil =>
    intro gs h _ _ _ acc _
    rw [sameFields] at h
    rw [h]
  | cons hd tl ih =>
    intro gs h hP hn hwf acc hacc
    obtain ⟨k, v⟩ := hd
    obtain ⟨w, gs1, gs2, rfl, h1, h2⟩ := (sameFields_cons k v tl gs).mp h
    obtain ⟨hn1, _, hn3⟩ := nodup_middle gs1 gs2 k w hn
    have hww : wfKeys w = true := hwf (k, w) (by simp)
    rw [recordLoop_move_front gs1 k w gs2 hn1 acc hacc, recordLoop_okValue_cons,
      recordLoop_okValue_cons, hP (k, v) (List.mem_cons_self _ _) w h1 hww]
    congr 1
    funext e
    apply ih (gs1 ++ gs2) h2 (fun p hp => hP p (List.mem_cons_of_mem _ hp)) hn3
    · intro p hp
      apply hwf p
      rcases List.mem_append.mp hp with hp | hp
      · exact List.mem_append_left _ hp
      · exact List.mem_append_right _ (List.mem_cons_of_mem _ hp)
    · exact keysSorted_mapInsert _ _ _ hacc

/-! ### The object cases of `toExpr` on two enumerations of one value -/

theorem toExpr_obj_bigint (val : List (String × AnyVal)) (s : String)
    (h1 : ¬ (val.length = 1 ∧ (index val "#map").isArr = true))
    (h2 : ¬ (val.length = 1 ∧ (index val "#tup").isArr = true))
    (h3 : ¬ (val.length = 1 ∧ (index val "#set").isArr = true))
    (hb : index val "#bigint" = AnyVal.str s) :
    toExpr (AnyVal.obj val)
      = match ParseInt s with
        | some bigint => Result.ok (Expr.int bigint)
        | none => Result.panic Panic.parseIntError := by
  rw [toExpr]
  split
  · next r hlen hsome =>
    exfalso
    have e := mapAt_isSome val "#map"
    rw [hsome] at e
    simp only [decide_eq_true_eq] at hlen
    exact h1 ⟨hlen, by simpa using e.symm⟩
  · split
    · next r hlen hsome =>
      exfalso
      have e := elemsAt_isSome val "#tup"
      rw [hsome] at e
      simp only [decide_eq_true_eq] at hlen
      exact h2 ⟨hlen, by simpa using e.symm⟩
    · split
      · next r hlen hsome =>
        exfalso
        have e := elemsAt_isSome val "#set"
        rw [hsome] at e
        simp only [decide_eq_true_eq] at hlen
        exact h3 ⟨hlen, by simpa using e.symm⟩
      · rw [hb]

theorem sameValue_isArr (a b : AnyVal) (h : sameValue a b) : b.isArr = a.isArr := by
  cases a <;> rw [sameValue] at h
  case arr xs => obtain ⟨ys, rfl, _⟩ := h; rfl
  case obj fs => obtain ⟨gs, rfl, _⟩ := h; rfl
  all_goals rw [h]

theorem sameValue_isStr (a b : AnyVal) (h : sameValue a b) : b.isStr = a.isStr := by
  cases a <;> rw [sameValue] at h
  case arr xs => obtain ⟨ys, rfl, _⟩ := h; rfl
  case obj fs => obtain ⟨gs, rfl, _⟩ := h; rfl
  all_goals rw [h]

theorem single_of_index_isArr (val : List (String × AnyVal)) (key : String)
    (hlen : val.length = 1) (h : (index val key).isArr = true) :
    ∃ c, val = [(key, AnyVal.arr c)] := by
  match val, hlen with
  | [(k, v)], _ =>
    rw [index] at h
    by_cases hk : key = k
    · subst hk
      rw [if_pos rfl] at h
      cases v <;> simp [AnyVal.isArr] at h
      exact ⟨_, rfl⟩
    · rw [if_neg hk] at h
      simp [index, AnyVal.isArr] at h

theorem sameFields_single (k : String) (v : AnyVal) (gs : List (String × AnyVal))
    (h : sameFields [(k, v)] gs) : ∃ w, gs = [(k, w)] ∧ sameValue v w := by
  obtain ⟨w, gs1, gs2, rfl, h1, h2⟩ := (sameFields_cons k v [] gs).mp h
  rw [sameFields] at h2
  obtain ⟨rfl, rfl⟩ := List.append_eq_nil.mp h2
  exact ⟨w, rfl, h1⟩

theorem decodedAsRecord_of_not (val : List (String × AnyVal))
    (h1 : ¬ (val.length = 1 ∧ (index val "#map").isArr = true))
    (h2 : ¬ (val.length = 1 ∧ (index val "#tup").isArr = true))
    (h3 : ¬ (val.length = 1 ∧ (index val "#set").isArr = true))
    (h4 : ¬ (index val "#bigint").isStr = true) : decodedAsRecord val = true := by
  unfold decodedAsRecord
  simp only [Bool.and_eq_true, Bool.not_eq_true', Bool.and_eq_false_iff, decide_eq_false_iff_not,
    decide_eq_true_eq]
  simp only [not_and, Bool.not_eq_true] at h1 h2 h3 h4
  refine ⟨⟨⟨?_, ?_⟩, ?_⟩, h4⟩
  · by_cases hl : val.length = 1
    · exact Or.inr (h1 hl)
    · exact Or.inl hl
  · by_cases hl : val.length = 1
    · exact Or.inr (h2 hl)
    · exact Or.inl hl
  · by_cases hl : val.length = 1
    · exact Or.inr (h3 hl)
    · exact Or.inl hl

theorem isStr_eq_true (a : AnyVal) (h : a.isStr = true) : ∃ s, a = AnyVal.str s := by
  cases a <;> simp [AnyVal.isStr] at h
  exact ⟨_, rfl⟩

theorem toExpr_sameValue_bounded (n : Nat) :
    ∀ (j : AnyVal), sizeOf j < n → ∀ j', sameValue j j' → wfKeys j' = true →
      (toExpr j).okValue = (toExpr j').okValue := by
  induction n with
  | zero => intro j h; omega
  | succ n ih =>
    intro j hsize j' hsame hwf
    cases j with
    | null => rw [sameValue] at hsame; rw [hsame]
    | bool b => rw [sameValue] at hsame; rw [hsame]
    | str s => rw [sameValue] at hsame; rw [hsame]
    | num f => rw [sameValue] at hsame; rw [hsame]
    | strMap m => rw [sameValue] at hsame; rw [hsame]
    | other t => rw [sameValue] at hsame; rw [hsame]
    | arr xs =>
      rw [sameValue] at hsame
      obtain ⟨ys, rfl, hsl⟩ := hsame
      rw [toExpr, toExpr, okValue_map, okValue_map,
        elemLoop_congr xs ys hsl
          (fun x hx y hxy hy => ih x (by have := sizeOf_elem_lt xs x hx; omega) y hxy hy)
          ((wfKeys_arr ys).mp hwf) []]
    | obj fs =>
      rw [sameValue] at hsame
      obtain ⟨gs, rfl, hsf⟩ := hsame
      obtain ⟨hnodup, hvals⟩ := (wfKeys_obj gs).mp hwf
      have hlen := sameFields_length fs gs hsf
      have hidx := sameValue_index fs gs hsf hnodup
      by_cases hA : fs.length = 1 ∧ (index fs "#map").isArr = true
      · obtain ⟨c, rfl⟩ := single_of_index_isArr fs "#map" hA.1 hA.2
        obtain ⟨w, rfl, hw⟩ := sameFields_single _ _ gs hsf
        rw [sameValue] at hw
        obtain ⟨c', rfl, hcc⟩ := hw
        have hwc : ∀ y ∈ c', wfKeys y = true :=
          (wfKeys_arr c').mp (hvals ("#map", AnyVal.arr c') (List.mem_singleton.mpr rfl))
        rw [toExpr_map, toExpr_map, okValue_map, okValue_map,
          entryLoop_congr c c' hcc ?_ hwc []]
        intro x hx k v more hxe w hvw hww
        subst hxe
        have s1 := sizeOf_elem_lt c _ hx
        have s2 := sizeOf_elem_lt (k :: v :: more) v (by simp)
        have s3 := sizeOf_field_lt [("#map", AnyVal.arr c)] "#map" (AnyVal.arr c)
          (List.mem_singleton.mpr rfl)
        exact ih v (by omega) w hvw hww
      · by_cases hB : fs.length = 1 ∧ (index fs "#tup").isArr = true
        · obtain ⟨c, rfl⟩ := single_of_index_isArr fs "#tup" hB.1 hB.2
          obtain ⟨w, rfl, hw⟩ := sameFields_single _ _ gs hsf
          rw [sameValue] at hw
          obtain ⟨c', rfl, hcc⟩ := hw
          have hwc : ∀ y ∈ c', wfKeys y = true :=
            (wfKeys_arr c').mp (hvals ("#tup", AnyVal.arr c') (List.mem_singleton.mpr rfl))
          rw [toExpr_tup, toExpr_tup, okValue_map, okValue_map,
            elemLoop_congr c c' hcc ?_ hwc []]
          intro x hx y hxy hy
          have s1 := sizeOf_elem_lt c _ hx
          have s3 := sizeOf_field_lt [("#tup", AnyVal.arr c)] "#tup" (AnyVal.arr c)
            (List.mem_singleton.mpr rfl)
          exact ih x (by omega) y hxy hy
        · by_cases hC : fs.length = 1 ∧ (index fs "#set").isArr = true
          · obtain ⟨c, rfl⟩ := single_of_index_isArr fs "#set" hC.1 hC.2
            obtain ⟨w, rfl, hw⟩ := sameFields_single _ _ gs hsf
            rw [sameValue] at hw
            obtain ⟨c', rfl, hcc⟩ := hw
            have hwc : ∀ y ∈ c', wfKeys y = true :=
              (wfKeys_arr c').mp (hvals ("#set", AnyVal.arr c') (List.mem_singleton.mpr rfl))
            rw [toExpr_set, toExpr_set, okValue_map, okValue_map,
              elemLoop_congr c c' hcc ?_ hwc []]
            intro x hx y hxy hy
            have s1 := sizeOf_elem_lt c _ hx
            have s3 := sizeOf_field_lt [("#set", AnyVal.arr c)] "#set" (AnyVal.arr c)
              (List.mem_singleton.mpr rfl)
            exact ih x (by omega) y hxy hy
          · have hA' : ¬ (gs.length = 1 ∧ (index gs "#map").isArr = true) := by
              rw [hlen, sameValue_isArr _ _ (hidx "#map")]; exact hA
            have hB' : ¬ (gs.length = 1 ∧ (index gs "#tup").isArr = true) := by
              rw [hlen, sameValue_isArr _ _ (hidx "#tup")]; exact hB
            have hC' : ¬ (gs.length = 1 ∧ (index gs "#set").isArr = true) := by
              rw [hlen, sameValue_isArr _ _ (hidx "#set")]; exact hC
            by_cases hD : (index fs "#bigint").isStr = true
            · obtain ⟨s, hs⟩ := isStr_eq_true _ hD
              have hs' : index gs "#bigint" = AnyVal.str s := by
                have := hidx "#bigint"
                rw [hs, sameValue] at this
                exact this
              rw [toExpr_obj_bigint fs s hA hB hC hs, toExpr_obj_bigint gs s hA' hB' hC' hs']
            · have hD' : ¬ (index gs "#bigint").isStr = true := by
                rw [sameValue_isStr _ _ (hidx "#bigint")]; exact hD
              rw [toExpr_record fs (decodedAsRecord_of_not fs hA hB hC hD),
                toExpr_record gs (decodedAsRecord_of_not gs hA' hB' hC' hD'),
                okValue_map, okValue_map,
                recordLoop_congr fs gs hsf ?_ hnodup hvals [] List.Pairwise.nil]
              intro p hp w hpw hww
              have s1 := sizeOf_field_lt fs p.1 p.2 hp
              exact ih p.2 (by omega) w hpw hww

theorem toExpr_sameValue (j j' : AnyVal) (h : sameValue j j') (hwf : wfKeys j' = true) :
    (toExpr j).okValue = (toExpr j').okValue :=
  toExpr_sameValue_bounded (sizeOf j + 1) j (Nat.lt_succ_self _) j' h hwf

/-! ### Null at a decoded position -/

/-- A value with a null at a decoded position (top level, element of an array, of a `#tup` or
of a `#set`, value of a `#map` entry, field value of an object decoded as a record, at any
depth through such positions) is never decoded: `toExpr` returns no `Expr`. -/
theorem toExpr_null_decoded_fails (j : AnyVal) (h : NullDecoded j) :
    ∀ e, toExpr j ≠ Result.ok e := by
  induction h with
  | top => intro e; simp [toExpr]
  | elem xs x hx _ ih =>
    intro e
    rw [toExpr, Ne, Result.map_eq_ok]
    rintro ⟨a, ha, _⟩
    exact elemLoop_not_ok xs x hx ih _ _ ha
  | tup xs x hx _ ih =>
    intro e
    rw [toExpr_tup, Ne, Result.map_eq_ok]
    rintro ⟨a, ha, _⟩
    exact elemLoop_not_ok xs x hx ih _ _ ha
  | set xs x hx _ ih =>
    intro e
    rw [toExpr_set, Ne, Result.map_eq_ok]
    rintro ⟨a, ha, _⟩
    exact elemLoop_not_ok xs x hx ih _ _ ha
  | mapValue entries k v more hx _ ih =>
    intro e
    rw [toExpr_map, Ne, Result.map_eq_ok]
    rintro ⟨a, ha, _⟩
    exact entryLoop_not_ok entries k v more hx ih _ _ ha
  | field fields k v hrec hx _ ih =>
    intro e
    rw [toExpr_record fields hrec, Ne, Result.map_eq_ok]
    rintro ⟨a, ha, _⟩
    exact recordLoop_not_ok fields k v hx ih _ _ ha

/-- The record `{"x": [true, null], "y": "s"}` has a null at a decoded position and is not
decoded. -/
theorem toExpr_null_decoded_fails_witness :
    NullDecoded (AnyVal.obj [("x", AnyVal.arr [AnyVal.bool true, AnyVal.null]),
      ("y", AnyVal.str "s")]) ∧
    ∀ e, toExpr (AnyVal.obj [("x", AnyVal.arr [AnyVal.bool true, AnyVal.null]),
      ("y", AnyVal.str "s")]) ≠ Result.ok e :=
  ⟨NullDecoded.field _ "x" _ rfl (List.mem_cons_self _ _)
      (NullDecoded.elem _ AnyVal.null (by simp) NullDecoded.top),
   toExpr_null_decoded_fails _
    (NullDecoded.field _ "x" _ rfl (List.mem_cons_self _ _)
      (NullDecoded.elem _ AnyVal.null (by simp) NullDecoded.top))⟩

/-! ### Claims -/

/-- C1: on `{"#map": entries}` where every entry is a pair `[k, v]`, every key `k` is a string
or a record whose leaves are strings and every value `v` decodes, the decoder returns a map
`m`; `m` has key `s` exactly when some entry key canonicalizes to `s`, and `m[s]` is the
decoding of the value of the last such entry. -/
theorem toExpr_map_last_entry_wins (pairs : List (AnyVal × AnyVal))
    (hk : ∀ p ∈ pairs, strLeaves p.1 = true)
    (hv : ∀ p ∈ pairs, ∃ e, toExpr p.2 = Result.ok e) :
    ∃ m, toExpr (AnyVal.obj [("#map", AnyVal.arr (pairs.map fun p => AnyVal.arr [p.1, p.2]))])
        = Result.ok (Expr.map m) ∧
      (∀ s, (∃ e, mapLookup m s = some e) ↔ ∃ p ∈ pairs, toString p.1 = Result.ok s) ∧
      (∀ s e, mapLookup m s = some e ↔
        ∃ pre k v post, pairs = pre ++ (k, v) :: post ∧ toString k = Result.ok s ∧
          toExpr v = Result.ok e ∧ ∀ p ∈ post, toString p.1 ≠ Result.ok s) := by
  obtain ⟨m, hm, hspec⟩ := entryLoop_pairs pairs [] hk hv
  have hspec2 : ∀ s e, mapLookup m s = some e ↔
        ∃ pre k v post, pairs = pre ++ (k, v) :: post ∧ toString k = Result.ok s ∧
          toExpr v = Result.ok e ∧ ∀ p ∈ post, toString p.1 ≠ Result.ok s := by
    intro s e
    rw [hspec s e]
    simp [mapLookup]
  refine ⟨m, ?_, ?_, hspec2⟩
  · rw [toExpr_map, hm]
    rfl
  · intro s
    constructor
    · rintro ⟨e, he⟩
      obtain ⟨pre, k, v, post, hp, h1, _, _⟩ := (hspec2 s e).mp he
      exact ⟨(k, v), by simp [hp], h1⟩
    · intro h
      obtain ⟨pre, k, v, post, hp, h1, h2⟩ := exists_last_key pairs s h
      obtain ⟨e, he⟩ := hv (k, v) (by simp [hp])
      exact ⟨e, (hspec2 s e).mpr ⟨pre, k, v, post, hp, h1, he, h2⟩⟩

/-- Witness for C1: two entries under the key `"ab"`, the second given as a record; the
later value is the one stored. -/
theorem toExpr_map_last_entry_wins_witness :
    toExpr (AnyVal.obj [("#map", AnyVal.arr
        [AnyVal.arr [AnyVal.str "ab", AnyVal.bool false],
         AnyVal.arr [AnyVal.str "c", AnyVal.str "x"],
         AnyVal.arr [AnyVal.obj [("a", AnyVal.str "b")], AnyVal.bool true]])])
      = Result.ok (Expr.map [("ab", Expr.bool true), ("c", Expr.str "x")]) ∧
    ∃ m, toExpr (AnyVal.obj [("#map", AnyVal.arr
          ([(AnyVal.str "ab", AnyVal.bool false), (AnyVal.str "c", AnyVal.str "x"),
            (AnyVal.obj [("a", AnyVal.str "b")], AnyVal.bool true)].map
              fun p => AnyVal.arr [p.1, p.2]))])
        = Result.ok (Expr.map m) ∧
      (∀ s, (∃ e, mapLookup m s = some e) ↔
        ∃ p ∈ [(AnyVal.str "ab", AnyVal.bool false), (AnyVal.str "c", AnyVal.str "x"),
            (AnyVal.obj [("a", AnyVal.str "b")], AnyVal.bool true)],
          toString p.1 = Result.ok s) ∧
      (∀ s e, mapLookup m s = some e ↔
        ∃ pre k v post,
          [(AnyVal.str "ab", AnyVal.bool false), (AnyVal.str "c", AnyVal.str "x"),
            (AnyVal.obj [("a", AnyVal.str "b")], AnyVal.bool true)] = pre ++ (k, v) :: post ∧
          toString k = Result.ok s ∧ toExpr v = Result.ok e ∧
          ∀ p ∈ post, toString p.1 ≠ Result.ok s) :=
  ⟨rfl, toExpr_map_last_entry_wins _ (by decide)
    (by
      intro p hp
      simp only [List.mem_cons, List.mem_singleton, List.not_mem_nil, or_false] at hp
      rcases hp with rfl | rfl | rfl <;> exact ⟨_, rfl⟩)⟩


/-- C3: the object `{"#map": [[null, "a"]]}` contains a null, as the key of a `#map` entry,
and the decoder succeeds on it, storing the entry under the key `""`; likewise for the null
inside the record key of `{"#map": [[{"a": null}, "v"]]}`, stored under the key `"a"`. -/
theorem toExpr_null_key_accepted :
    ContainsNull (AnyVal.obj [("#map", AnyVal.arr [AnyVal.arr [AnyVal.null, AnyVal.str "a"]])]) ∧
    toExpr (AnyVal.obj [("#map", AnyVal.arr [AnyVal.arr [AnyVal.null, AnyVal.str "a"]])])
      = Result.ok (Expr.map [("", Expr.str "a")]) ∧
    ContainsNull (AnyVal.obj [("#map", AnyVal.arr
      [AnyVal.arr [AnyVal.obj [("a", AnyVal.null)], AnyVal.str "v"]])]) ∧
    toExpr (AnyVal.obj [("#map", AnyVal.arr
        [AnyVal.arr [AnyVal.obj [("a", AnyVal.null)], AnyVal.str "v"]])])
      = Result.ok (Expr.map [("a", Expr.str "v")]) :=
  ⟨ContainsNull.field _ "#map" _ (List.mem_singleton.mpr rfl)
    (ContainsNull.elem _ _ (List.mem_singleton.mpr rfl)
      (ContainsNull.elem _ AnyVal.null (List.mem_cons_self _ _) ContainsNull.top)), rfl,
   ContainsNull.field _ "#map" _ (List.mem_singleton.mpr rfl)
    (ContainsNull.elem _ _ (List.mem_singleton.mpr rfl)
      (ContainsNull.elem _ (AnyVal.obj [("a", AnyVal.null)]) (List.mem_cons_self _ _)
        (ContainsNull.field _ "a" _ (List.mem_singleton.mpr rfl) ContainsNull.top))), rfl⟩

/-- C4 (as stated, refuted): on the JSON text of the empty string, `""`, the call returns no
error and a fresh `Expr` still holds nil, not the string. -/
theorem UnmarshalJSON_empty_string_not_stored :
    unmarshalLiteral "\"\"" = some (AnyVal.str "") ∧
    (AnyVal.str "").isPrimitive = true ∧
    Expr.UnmarshalJSON unmarshalLiteral Expr.nil "\"\"" = (Result.ok (), Expr.nil) ∧
    Expr.nil ≠ Expr.ofPrimitive (AnyVal.str "") :=
  ⟨rfl, rfl, rfl, fun h => Expr.noConfusion h⟩

/-- C4 (amended): for a JSON boolean, a non-empty JSON string or a JSON number `v`, whose
text `data` the library decodes to `v`, `UnmarshalJSON` on a fresh `Expr` returns no error
and leaves the `Expr` holding `v`; on the text `""` of the empty string it returns no error
and leaves the receiver as it was. -/
theorem UnmarshalJSON_primitive (unmarshal : String → Option AnyVal)
    (hnull : unmarshal "null" = some AnyVal.null)
    (hempty : unmarshal "\"\"" = some (AnyVal.str ""))
    (data : String) (v : AnyVal) (hv : unmarshal data = some v)
    (hp : v.isPrimitive = true) (hne : v ≠ AnyVal.str "") :
    Expr.UnmarshalJSON unmarshal Expr.nil data = (Result.ok (), Expr.ofPrimitive v) ∧
    ∀ e, Expr.UnmarshalJSON unmarshal e "\"\"" = (Result.ok (), e) := by
  have h1 : data ≠ "null" := by
    rintro rfl
    rw [hnull] at hv
    cases hv
    simp [AnyVal.isPrimitive] at hp
  have h2 : data ≠ "\"\"" := by
    rintro rfl
    rw [hempty] at hv
    cases hv
    exact hne rfl
  constructor
  · unfold Expr.UnmarshalJSON
    rw [if_neg (by simp [h1, h2]), hv]
    cases v <;> simp [AnyVal.isPrimitive] at hp <;> simp [toExpr, Expr.ofPrimitive]
  · intro e
    simp [Expr.UnmarshalJSON]

/-- Witness for C4 (amended): the text `true`. -/
theorem UnmarshalJSON_primitive_witness :
    Expr.UnmarshalJSON unmarshalLiteral Expr.nil "true"
      = (Result.ok (), Expr.ofPrimitive (AnyVal.bool true)) ∧
    ∀ e, Expr.UnmarshalJSON unmarshalLiteral e "\"\"" = (Result.ok (), e) :=
  UnmarshalJSON_primitive unmarshalLiteral rfl rfl "true" (AnyVal.bool true) rfl rfl
    (fun h => AnyVal.noConfusion h)

/-- C2: on the input of `TestUnmarshallRecordWithIntsAsMapKey` the decoder succeeds, and the
entry is stored under the canonicalization of the raw key, `"a#bigint1b#bigint2"`. -/
theorem toExpr_record_key_leaks_tag :
    toExpr (AnyVal.obj [("mapping", AnyVal.obj [("#map", AnyVal.arr [AnyVal.arr
      [AnyVal.obj [("a", AnyVal.obj [("#bigint", AnyVal.str "1")]),
                   ("b", AnyVal.obj [("#bigint", AnyVal.str "2")])],
       AnyVal.obj [("#bigint", AnyVal.str "3")]]])])])
      = Result.ok (Expr.map [("mapping", Expr.map [("a#bigint1b#bigint2", Expr.int 3)])]) :=
  rfl

/-- C5: on `{"#bigint": "99999999999999999999"}` the decoder panics with the parse error
instead of returning it. -/
theorem toExpr_bigint_out_of_range_panics :
    toExpr (AnyVal.obj [("#bigint", AnyVal.str "99999999999999999999")])
      = Result.panic Panic.parseIntError :=
  rfl

/-- C6: for every 64-bit signed integer `n`, the decoder on `{"#bigint": s}` with `s` the
base-10 representation of `n` succeeds and returns the integer `n`. -/
theorem toExpr_bigint_int64 (n : Int) (hlo : -2 ^ 63 ≤ n) (hhi : n < 2 ^ 63) :
    toExpr (AnyVal.obj [("#bigint", AnyVal.str (base10 n))]) = Result.ok (Expr.int n) := by
  rw [toExpr_bigint, ParseInt_base10 n hlo hhi]

/-- Witness for C6: the integer of `TestUnmarshallBigInt`. -/
theorem toExpr_bigint_int64_witness :
    base10 (-1234567890) = "-1234567890" ∧
    toExpr (AnyVal.obj [("#bigint", AnyVal.str (base10 (-1234567890)))])
      = Result.ok (Expr.int (-1234567890)) :=
  ⟨by decide, toExpr_bigint_int64 (-1234567890) (by decide) (by decide)⟩

/-- C7: a `#map` entry with one element makes the decoder panic on `pair[1]`, and an entry
with three elements is accepted, its third element being ignored. -/
theorem toExpr_map_entry_length_unchecked :
    toExpr (AnyVal.obj [("#map", AnyVal.arr [AnyVal.arr [AnyVal.str "a"]])])
      = Result.panic Panic.indexOutOfRange ∧
    toExpr (AnyVal.obj [("#map", AnyVal.arr
        [AnyVal.arr [AnyVal.str "a", AnyVal.str "b", AnyVal.str "c"]])])
      = Result.ok (Expr.map [("a", Expr.str "b")]) :=
  ⟨rfl, rfl⟩

/-- C8: the two-field object `{"#bigint": "5", "x": true}` is decoded as the integer 5, not
as a record. -/
theorem toExpr_bigint_ignores_other_fields :
    toExpr (AnyVal.obj [("#bigint", AnyVal.str "5"), ("x", AnyVal.bool true)])
      = Result.ok (Expr.int 5) :=
  rfl

/-- C9: for the record `{"": "z", "a": "b"}` the canonical string is `"zzzab"`: the field
named `""` is emitted three times, not once. -/
theorem toString_empty_field_name_repeated :
    toString (AnyVal.obj [("", AnyVal.str "z"), ("a", AnyVal.str "b")]) = Result.ok "zzzab" :=
  rfl

/-- C10: on `{"#map": [[1, "v"]]}`, whose entry key is the number 1 (bit pattern
`0x3FF0000000000000`), the decoder panics with a failed type assertion. -/
theorem toExpr_number_key_panics :
    toExpr (AnyVal.obj [("#map", AnyVal.arr
        [AnyVal.arr [AnyVal.num ⟨0x3FF0000000000000⟩, AnyVal.str "v"]])])
      = Result.panic Panic.typeAssertion :=
  rfl

/-- C12: on an array the decoder succeeds exactly when it succeeds on every element; the
result is then the list of the decoded elements, in order and of the same length; the first
element that does not decode decides the outcome: its error is the error returned (and its
panic the panic raised). -/
theorem toExpr_array_elementwise (xs : List AnyVal) :
    ((∃ r, toExpr (AnyVal.arr xs) = Result.ok r) ↔ ∀ x ∈ xs, ∃ e, toExpr x = Result.ok e) ∧
    (∀ r, toExpr (AnyVal.arr xs) = Result.ok r →
      ∃ es, r = Expr.list es ∧ es.length = xs.length ∧
        List.Forall₂ (fun x e => toExpr x = Result.ok e) xs es) ∧
    (∀ pre x post, xs = pre ++ x :: post → (∀ y ∈ pre, ∃ e, toExpr y = Result.ok e) →
      (∀ err, toExpr x = Result.error err → toExpr (AnyVal.arr xs) = Result.error err) ∧
      (∀ p, toExpr x = Result.panic p → toExpr (AnyVal.arr xs) = Result.panic p)) := by
  have h2 : ∀ r, toExpr (AnyVal.arr xs) = Result.ok r →
      ∃ es, r = Expr.list es ∧ es.length = xs.length ∧
        List.Forall₂ (fun x e => toExpr x = Result.ok e) xs es := by
    intro r hr
    have hr2 := hr
    rw [toExpr, Result.map_eq_ok] at hr2
    obtain ⟨l, _, rfl⟩ := hr2
    have hes := (toExpr_arr_ok_iff xs l).mp hr
    exact ⟨l, rfl, hes.length_eq.symm, hes⟩
  refine ⟨?_, h2, ?_⟩
  · constructor
    · rintro ⟨r, hr⟩
      obtain ⟨es, _, _, hes⟩ := h2 r hr
      exact forall_ok_of_forall₂ xs es hes
    · intro h
      obtain ⟨es, hes⟩ := forall₂_of_forall_ok xs h
      exact ⟨Expr.list es, (toExpr_arr_ok_iff xs es).mpr hes⟩
  · intro pre x post hxs hpre
    subst hxs
    constructor
    · intro err hx
      rw [toExpr, elemLoop_first_error pre x post hpre err hx]
      rfl
    · intro p hx
      rw [toExpr, elemLoop_first_panic pre x post hpre p hx]
      rfl

/-- Witness for C12: `[123, "abc"]` decodes elementwise, and `[true, null, 1]` fails with
the error of its second element. -/
theorem toExpr_array_elementwise_witness :
    toExpr (AnyVal.arr [AnyVal.num ⟨0x405EC00000000000⟩, AnyVal.str "abc"])
      = Result.ok (Expr.list [Expr.num ⟨0x405EC00000000000⟩, Expr.str "abc"]) ∧
    toExpr (AnyVal.arr [AnyVal.bool true, AnyVal.null, AnyVal.num ⟨0x3FF0000000000000⟩])
      = Result.error DecodeError.nullNotAllowed :=
  ⟨rfl,
   ((toExpr_array_elementwise
      [AnyVal.bool true, AnyVal.null, AnyVal.num ⟨0x3FF0000000000000⟩]).2.2
      [AnyVal.bool true] AnyVal.null [AnyVal.num ⟨0x3FF0000000000000⟩] rfl
      (by intro y hy; rw [List.mem_singleton] at hy; subst hy; exact ⟨_, rfl⟩)).1
      DecodeError.nullNotAllowed rfl⟩

/-- C13: on `{"#tup": xs}` and on `{"#set": xs}` the decoder gives exactly what it gives on
the plain array `xs`, the same list or the same failure. -/
theorem toExpr_tup_set_eq_array (xs : List AnyVal) :
    toExpr (AnyVal.obj [("#tup", AnyVal.arr xs)]) = toExpr (AnyVal.arr xs) ∧
    toExpr (AnyVal.obj [("#set", AnyVal.arr xs)]) = toExpr (AnyVal.arr xs) := by
  rw [toExpr_tup, toExpr_set]
  constructor <;> rw [toExpr]

/-- C15: a single-key object whose key is `#map`, `#tup` or `#set` with a value that is not
an array, or whose key is `#bigint` with a value that is not a string, is decoded as the
one-field record: the map with that key and the decoding of the value, or the failure of
decoding the value. -/
theorem toExpr_reserved_key_fallback (key : String) (v : AnyVal)
    (h : ((key = "#map" ∨ key = "#tup" ∨ key = "#set") ∧ v.isArr = false) ∨
      (key = "#bigint" ∧ v.isStr = false)) :
    toExpr (AnyVal.obj [(key, v)]) = (toExpr v).map fun e => Expr.map [(key, e)] := by
  have hrec : decodedAsRecord [(key, v)] = true := by
    rcases h with ⟨h | h | h, hv⟩ | ⟨h, hv⟩ <;> subst h <;> cases v <;>
      simp_all [decodedAsRecord, index, AnyVal.isArr, AnyVal.isStr]
  rw [toExpr_record _ hrec, recordLoop_single]
  cases toExpr v <;> rfl

/-- Witness for C15: `{"#map": "x"}` and `{"#bigint": [true]}` decode as one-field
records. -/
theorem toExpr_reserved_key_fallback_witness :
    toExpr (AnyVal.obj [("#map", AnyVal.str "x")])
      = (toExpr (AnyVal.str "x")).map (fun e => Expr.map [("#map", e)]) ∧
    toExpr (AnyVal.obj [("#map", AnyVal.str "x")]) = Result.ok (Expr.map [("#map", Expr.str "x")]) ∧
    toExpr (AnyVal.obj [("#bigint", AnyVal.arr [AnyVal.bool true])])
      = Result.ok (Expr.map [("#bigint", Expr.list [Expr.bool true])]) :=
  ⟨toExpr_reserved_key_fallback "#map" (AnyVal.str "x") (Or.inl ⟨Or.inl rfl, rfl⟩), rfl, rfl⟩

/-- C19: the records `{"a": "bc"}` and `{"ab": "c"}` differ and both canonicalize to
`"abc"`; the `#map` with one entry under each decodes to a map with the single key `"abc"`,
holding the value of the second entry. -/
theorem toString_collision_visible :
    AnyVal.obj [("a", AnyVal.str "bc")] ≠ AnyVal.obj [("ab", AnyVal.str "c")] ∧
    toString (AnyVal.obj [("a", AnyVal.str "bc")]) = Result.ok "abc" ∧
    toString (AnyVal.obj [("ab", AnyVal.str "c")]) = Result.ok "abc" ∧
    toExpr (AnyVal.obj [("#map", AnyVal.arr
        [AnyVal.arr [AnyVal.obj [("a", AnyVal.str "bc")], AnyVal.bool false],
         AnyVal.arr [AnyVal.obj [("ab", AnyVal.str "c")], AnyVal.bool true]])])
      = Result.ok (Expr.map [("abc", Expr.bool true)]) :=
  ⟨by
    intro h
    injection h with h
    injection h with h _
    injection h with h _
    exact absurd h (by decide), rfl, rfl, rfl⟩

/-- C14: on the text `{}` (which the library decodes to the empty field map), on `""` and on
`null`, `State.UnmarshalJSON` on a fresh `State` returns no error and leaves a `State` with
nil `Meta` and no entry in `VarValues`. -/
theorem State_UnmarshalJSON_empty (unmarshalObj : String → Option (List (String × String)))
    (unmarshalMeta : String → Option (Option (List (String × AnyVal))))
    (unmarshal : String → Option AnyVal) (hobj : unmarshalObj "\x7b\x7d" = some [])
    (data : String) (hdata : data = "\x7b\x7d" ∨ data = "\"\"" ∨ data = "null") :
    (State.UnmarshalJSON unmarshalObj unmarshalMeta unmarshal State.zero data).1 = Result.ok () ∧
    (State.UnmarshalJSON unmarshalObj unmarshalMeta unmarshal State.zero data).2.Meta = none ∧
    (State.UnmarshalJSON unmarshalObj unmarshalMeta unmarshal State.zero data).2.varEntries
      = [] := by
  rcases hdata with rfl | rfl | rfl
  · have h : ¬ ("\x7b\x7d" = "null" ∨ "\x7b\x7d" = "\"\"") := by decide
    simp only [State.UnmarshalJSON, if_neg h, hobj, stateLoop, State.varEntries, Option.getD,
      and_self]
  · simp [State.UnmarshalJSON, State.zero, State.varEntries]
  · simp [State.UnmarshalJSON, State.zero, State.varEntries]

/-- Witness for C14: the text `{}`, with the literal fragment of the library. -/
theorem State_UnmarshalJSON_empty_witness :
    State.UnmarshalJSON unmarshalObjLiteral unmarshalMetaLiteral unmarshalLiteral State.zero
        "\x7b\x7d"
      = (Result.ok (), ⟨none, some []⟩) ∧
    (State.UnmarshalJSON unmarshalObjLiteral unmarshalMetaLiteral unmarshalLiteral
      State.zero "\x7b\x7d").1 = Result.ok () ∧
    (State.UnmarshalJSON unmarshalObjLiteral unmarshalMetaLiteral unmarshalLiteral
      State.zero "\x7b\x7d").2.Meta = none ∧
    (State.UnmarshalJSON unmarshalObjLiteral unmarshalMetaLiteral unmarshalLiteral
      State.zero "\x7b\x7d").2.varEntries = [] :=
  ⟨rfl, State_UnmarshalJSON_empty unmarshalObjLiteral unmarshalMetaLiteral unmarshalLiteral rfl
    "\x7b\x7d" (Or.inl rfl)⟩

/-- C20: `Expr.UnmarshalJSON` and `State.UnmarshalJSON` leave their receiver as it was when
the input is `null` or `""` (and return no error), when they return an error, and when they
panic: the receiver changes only when a decode of another input succeeds. -/
theorem UnmarshalJSON_receiver_frame (unmarshalObj : String → Option (List (String × String)))
    (unmarshalMeta : String → Option (Option (List (String × AnyVal))))
    (unmarshal : String → Option AnyVal) (e : Expr) (s : State) (data : String) :
    ((data = "null" ∨ data = "\"\"") →
      Expr.UnmarshalJSON unmarshal e data = (Result.ok (), e) ∧
      State.UnmarshalJSON unmarshalObj unmarshalMeta unmarshal s data = (Result.ok (), s)) ∧
    ((Expr.UnmarshalJSON unmarshal e data).1 ≠ Result.ok () →
      (Expr.UnmarshalJSON unmarshal e data).2 = e) ∧
    ((State.UnmarshalJSON unmarshalObj unmarshalMeta unmarshal s data).1 ≠ Result.ok () →
      (State.UnmarshalJSON unmarshalObj unmarshalMeta unmarshal s data).2 = s) := by
  refine ⟨?_, ?_, ?_⟩
  · intro h
    simp [Expr.UnmarshalJSON, State.UnmarshalJSON, h]
  · unfold Expr.UnmarshalJSON
    split
    · intro _; rfl
    · split
      · intro _; rfl
      · split
        · intro h; exact absurd rfl h
        · intro _; rfl
        · intro _; rfl
  · unfold State.UnmarshalJSON
    split
    · intro _; rfl
    · split
      · intro _; rfl
      · split
        · intro h; exact absurd rfl h
        · intro _; rfl
        · intro _; rfl

/-- Witness for C20: a receiver holding `true` is unchanged by the input `null` and by an
input the decoder rejects. -/
theorem UnmarshalJSON_receiver_frame_witness :
    Expr.UnmarshalJSON unmarshalLiteral (Expr.bool true) "null"
      = (Result.ok (), Expr.bool true) ∧
    State.UnmarshalJSON unmarshalObjLiteral unmarshalMetaLiteral unmarshalLiteral
      ⟨none, some [("x", Expr.bool true)]⟩ "null"
      = (Result.ok (), ⟨none, some [("x", Expr.bool true)]⟩) ∧
    (Expr.UnmarshalJSON unmarshalLiteral (Expr.bool true) "[1").2 = Expr.bool true :=
  ⟨((UnmarshalJSON_receiver_frame unmarshalObjLiteral unmarshalMetaLiteral unmarshalLiteral
      (Expr.bool true) ⟨none, some [("x", Expr.bool true)]⟩ "null").1 (Or.inl rfl)).1,
   ((UnmarshalJSON_receiver_frame unmarshalObjLiteral unmarshalMetaLiteral unmarshalLiteral
      (Expr.bool true) ⟨none, some [("x", Expr.bool true)]⟩ "null").1 (Or.inl rfl)).2,
   rfl⟩

/-- C18: every `Expr` returned by a successful `toExpr` holds a value other than nil, and so
does every `Expr` inside its lists and maps, at every depth. -/
theorem toExpr_holds_no_nil (j : AnyVal) (e : Expr) (h : toExpr j = Result.ok e) :
    e.nonNil = true :=
  toExpr_nonNil_rec j e h

/-- Witness for C18: the record of `TestUnmarshallRecord`. -/
theorem toExpr_holds_no_nil_witness :
    toExpr (AnyVal.obj [("x", AnyVal.bool true),
        ("y", AnyVal.obj [("#map", AnyVal.arr [AnyVal.arr [AnyVal.str "z", AnyVal.str "abc"]])])])
      = Result.ok (Expr.map [("x", Expr.bool true), ("y", Expr.map [("z", Expr.str "abc")])]) ∧
    (Expr.map [("x", Expr.bool true), ("y", Expr.map [("z", Expr.str "abc")])]).nonNil = true :=
  ⟨rfl, toExpr_holds_no_nil
    (AnyVal.obj [("x", AnyVal.bool true),
      ("y", AnyVal.obj [("#map", AnyVal.arr [AnyVal.arr [AnyVal.str "z", AnyVal.str "abc"]])])])
    _ rfl⟩

/-- C16: the canonical string of a record does not depend on the order in which its fields
are enumerated: two enumerations of the same fields (pairwise distinct names) give the same
`toString`, for a `map[string]string` and for a `map[string]any`. -/
theorem toString_field_order_independent :
    (∀ x y : List (String × String), x.Perm y → (x.map Prod.fst).Nodup →
      toString (AnyVal.strMap x) = toString (AnyVal.strMap y)) ∧
    (∀ x y : List (String × AnyVal), x.Perm y → (x.map Prod.fst).Nodup →
      toString (AnyVal.obj x) = toString (AnyVal.obj y)) := by
  constructor
  · intro x y h hn
    rw [toString, toString, sortedKeys_perm _ _ (h.map Prod.fst)]
    congr 1
    funext k
    rw [indexStr_perm x y h hn k]
  · intro x y h hn
    rw [toString, toString, sortedKeys_perm _ _ (h.map Prod.fst)]
    congr 1
    funext k
    rw [toStringAt_eq_index, toStringAt_eq_index, index_perm x y h hn k]

/-- Witness for C16: the record of `TestToString` in both orders. -/
theorem toString_field_order_independent_witness :
    toString (AnyVal.strMap [("a", "b"), ("c", "d")]) = Result.ok "abcd" ∧
    toString (AnyVal.strMap [("c", "d"), ("a", "b")]) = Result.ok "abcd" ∧
    toString (AnyVal.strMap [("a", "b"), ("c", "d")])
      = toString (AnyVal.strMap [("c", "d"), ("a", "b")]) ∧
    toString (AnyVal.obj [("a", AnyVal.str "b"), ("c", AnyVal.str "d")])
      = toString (AnyVal.obj [("c", AnyVal.str "d"), ("a", AnyVal.str "b")]) :=
  ⟨rfl, rfl,
   toString_field_order_independent.1 [("a", "b"), ("c", "d")] [("c", "d"), ("a", "b")]
     (List.Perm.swap _ _ _) (by decide),
   toString_field_order_independent.2 [("a", AnyVal.str "b"), ("c", AnyVal.str "d")]
     [("c", AnyVal.str "d"), ("a", AnyVal.str "b")] (List.Perm.swap _ _ _) (by decide)⟩

/-- C11 (as stated, refuted): on the object `{"x":null}` `State.UnmarshalJSON` succeeds and
`VarValues` holds a nil `Expr` under `x`, although `toExpr` rejects the value null of that
field. -/
theorem State_UnmarshalJSON_null_field_accepted :
    unmarshalObjLiteral "\x7b\"x\":null\x7d" = some [("x", "null")] ∧
    unmarshalLiteral "null" = some AnyVal.null ∧
    toExpr AnyVal.null = Result.error DecodeError.nullNotAllowed ∧
    State.UnmarshalJSON unmarshalObjLiteral unmarshalMetaLiteral unmarshalLiteral State.zero
      "\x7b\"x\":null\x7d" = (Result.ok (), ⟨none, some [("x", Expr.nil)]⟩) :=
  ⟨rfl, rfl, rfl, rfl⟩

/-- C11 (amended): for an object text `data` that the library splits into the fields
`objmap` (pairwise distinct names), `State.UnmarshalJSON` on a fresh `State` succeeds exactly
when the `#meta` field (if present) decodes as an untyped mapping and every other field's
value is `null`, is `""`, or is decoded by `toExpr`; `VarValues` then has exactly the field
names other than `#meta` as keys, a field with value `null` or `""` mapped to a nil `Expr`
and every other field to the `Expr` that `toExpr` returns for its value, and `Meta` is what
the library decoded from the `#meta` field, nil when there is none. -/
theorem State_UnmarshalJSON_fields (unmarshalObj : String → Option (List (String × String)))
    (unmarshalMeta : String → Option (Option (List (String × AnyVal))))
    (unmarshal : String → Option AnyVal) (data : String) (objmap : List (String × String))
    (hnull : data ≠ "null") (hempty : data ≠ "\"\"")
    (hobj : unmarshalObj data = some objmap) (hn : (objmap.map Prod.fst).Nodup) :
    ((State.UnmarshalJSON unmarshalObj unmarshalMeta unmarshal State.zero data).1 = Result.ok () ↔
      (∀ raw, ("#meta", raw) ∈ objmap → ∃ m, unmarshalMeta raw = some m) ∧
      (∀ k raw, (k, raw) ∈ objmap → k ≠ "#meta" →
        raw = "null" ∨ raw = "\"\"" ∨
          ∃ v e, unmarshal raw = some v ∧ toExpr v = Result.ok e)) ∧
    ((State.UnmarshalJSON unmarshalObj unmarshalMeta unmarshal State.zero data).1 = Result.ok () →
      (∀ k e,
        mapLookup (State.UnmarshalJSON unmarshalObj unmarshalMeta unmarshal
            State.zero data).2.varEntries k = some e ↔
          k ≠ "#meta" ∧ ∃ raw, (k, raw) ∈ objmap ∧
            (((raw = "null" ∨ raw = "\"\"") ∧ e = Expr.nil) ∨
              (raw ≠ "null" ∧ raw ≠ "\"\"" ∧
                ∃ v, unmarshal raw = some v ∧ toExpr v = Result.ok e))) ∧
      (∀ raw, ("#meta", raw) ∈ objmap →
        unmarshalMeta raw = some (State.UnmarshalJSON unmarshalObj unmarshalMeta unmarshal
          State.zero data).2.Meta) ∧
      ("#meta" ∉ objmap.map Prod.fst →
        (State.UnmarshalJSON unmarshalObj unmarshalMeta unmarshal
          State.zero data).2.Meta = none)) := by
  have hguard : ¬ (data = "null" ∨ data = "\"\"") := by
    rintro (h | h)
    · exact hnull h
    · exact hempty h
  have hfield : ∀ raw, (∃ e, Expr.UnmarshalJSON unmarshal Expr.nil raw = (Result.ok (), e)) ↔
      (raw = "null" ∨ raw = "\"\"" ∨ ∃ v e, unmarshal raw = some v ∧ toExpr v = Result.ok e) := by
    intro raw
    constructor
    · rintro ⟨e, he⟩
      rcases (Expr_UnmarshalJSON_fresh_ok unmarshal raw e).mp he with
        ⟨h | h, _⟩ | ⟨_, _, v, hv, hve⟩
      · exact Or.inl h
      · exact Or.inr (Or.inl h)
      · exact Or.inr (Or.inr ⟨v, e, hv, hve⟩)
    · intro h
      by_cases hg : raw = "null" ∨ raw = "\"\""
      · exact ⟨Expr.nil, (Expr_UnmarshalJSON_fresh_ok unmarshal raw _).mpr (Or.inl ⟨hg, rfl⟩)⟩
      · rcases h with h | h | ⟨v, e, hv, hve⟩
        · exact absurd (Or.inl h) hg
        · exact absurd (Or.inr h) hg
        · exact ⟨e, (Expr_UnmarshalJSON_fresh_ok unmarshal raw e).mpr
            (Or.inr ⟨fun hh => hg (Or.inl hh), fun hh => hg (Or.inr hh), v, hv, hve⟩)⟩
  have hiff := stateLoop_ok_iff unmarshalMeta unmarshal objmap none []
  unfold State.UnmarshalJSON
  rw [if_neg hguard, hobj]
  simp only
  cases hloop : stateLoop unmarshalMeta unmarshal objmap none [] with
  | ok r =>
    obtain ⟨meta, values⟩ := r
    obtain ⟨hv, hm1, hm2⟩ :=
      stateLoop_result unmarshalMeta unmarshal objmap none [] meta values hn hloop
    have hcond := hiff.mp ⟨_, hloop⟩
    simp only [true_iff, true_implies, State.varEntries, Option.getD]
    refine ⟨⟨hcond.1, fun k raw hraw hne => (hfield raw).mp (hcond.2 k raw hraw hne)⟩, ?_, hm1, hm2⟩
    intro k e
    rw [hv k e]
    constructor
    · rintro (⟨hne, raw, hraw, hu⟩ | ⟨hl, _⟩)
      · exact ⟨hne, raw, hraw, (Expr_UnmarshalJSON_fresh_ok unmarshal raw e).mp hu⟩
      · simp [mapLookup] at hl
    · rintro ⟨hne, raw, hraw, hu⟩
      exact Or.inl ⟨hne, raw, hraw, (Expr_UnmarshalJSON_fresh_ok unmarshal raw e).mpr hu⟩
  | error err =>
    simp only
    refine ⟨⟨fun h => Result.noConfusion h, ?_⟩, fun h => Result.noConfusion h⟩
    rintro ⟨h1, h2⟩
    obtain ⟨r, hr⟩ := hiff.mpr ⟨h1, fun k raw hraw hne => (hfield raw).mpr (h2 k raw hraw hne)⟩
    rw [hloop] at hr
    cases hr
  | panic p =>
    simp only
    refine ⟨⟨fun h => Result.noConfusion h, ?_⟩, fun h => Result.noConfusion h⟩
    rintro ⟨h1, h2⟩
    obtain ⟨r, hr⟩ := hiff.mpr ⟨h1, fun k raw hraw hne => (hfield raw).mpr (h2 k raw hraw hne)⟩
    rw [hloop] at hr
    cases hr

/-- Witness for C11 (amended): the state of `TestUnmarshallState`, with an empty `#meta`
mapping. -/
theorem State_UnmarshalJSON_fields_witness :
    State.UnmarshalJSON unmarshalObjLiteral unmarshalMetaLiteral unmarshalLiteral State.zero
        "\x7b\"#meta\":\x7b\x7d,\"var1\":\"abc\",\"var2\":true\x7d"
      = (Result.ok (), ⟨some [], some [("var1", Expr.str "abc"), ("var2", Expr.bool true)]⟩) ∧
    ((State.UnmarshalJSON unmarshalObjLiteral unmarshalMetaLiteral unmarshalLiteral State.zero
        "\x7b\"#meta\":\x7b\x7d,\"var1\":\"abc\",\"var2\":true\x7d").1 = Result.ok () ↔
      (∀ raw, ("#meta", raw) ∈ [("#meta", "\x7b\x7d"), ("var1", "\"abc\""), ("var2", "true")] →
        ∃ m, unmarshalMetaLiteral raw = some m) ∧
      (∀ k raw, (k, raw) ∈ [("#meta", "\x7b\x7d"), ("var1", "\"abc\""), ("var2", "true")] →
        k ≠ "#meta" →
        raw = "null" ∨ raw = "\"\"" ∨
          ∃ v e, unmarshalLiteral raw = some v ∧ toExpr v = Result.ok e)) :=
  ⟨rfl,
   (State_UnmarshalJSON_fields unmarshalObjLiteral unmarshalMetaLiteral unmarshalLiteral
      "\x7b\"#meta\":\x7b\x7d,\"var1\":\"abc\",\"var2\":true\x7d"
      [("#meta", "\x7b\x7d"), ("var1", "\"abc\""), ("var2", "true")]
      (by decide) (by decide) rfl (by decide)).1⟩

/-- C17: two runs of the decoder on one value, the second enumerating the fields of its
maps (pairwise distinct names) in any other order at any depth, both fail or both succeed,
and when they succeed they return the same `Expr`. -/
theorem toExpr_deterministic (j j' : AnyVal) (h : sameValue j j') (hwf : wfKeys j' = true) :
    ((∃ e, toExpr j = Result.ok e) ↔ (∃ e, toExpr j' = Result.ok e)) ∧
    (∀ e e', toExpr j = Result.ok e → toExpr j' = Result.ok e' → e = e') := by
  have hv := toExpr_sameValue j j' h hwf
  constructor
  · constructor
    · rintro ⟨e, he⟩
      rw [← okValue_eq_some, hv, okValue_eq_some] at he
      exact ⟨e, he⟩
    · rintro ⟨e, he⟩
      rw [← okValue_eq_some, ← hv, okValue_eq_some] at he
      exact ⟨e, he⟩
  · intro e e' he he'
    rw [← okValue_eq_some, hv, okValue_eq_some, he'] at he
    cases he
    rfl

/-- Witness for C17: a record with a nested record, its fields enumerated in two orders at
both levels. -/
theorem toExpr_deterministic_witness :
    toExpr (AnyVal.obj [("x", AnyVal.bool true),
        ("y", AnyVal.obj [("b", AnyVal.str "s"), ("a", AnyVal.arr [])])])
      = Result.ok (Expr.map [("x", Expr.bool true),
          ("y", Expr.map [("a", Expr.list []), ("b", Expr.str "s")])]) ∧
    toExpr (AnyVal.obj [("y", AnyVal.obj [("a", AnyVal.arr []), ("b", AnyVal.str "s")]),
        ("x", AnyVal.bool true)])
      = Result.ok (Expr.map [("x", Expr.bool true),
          ("y", Expr.map [("a", Expr.list []), ("b", Expr.str "s")])]) ∧
    (∀ e e',
      toExpr (AnyVal.obj [("x", AnyVal.bool true),
        ("y", AnyVal.obj [("b", AnyVal.str "s"), ("a", AnyVal.arr [])])]) = Result.ok e →
      toExpr (AnyVal.obj [("y", AnyVal.obj [("a", AnyVal.arr []), ("b", AnyVal.str "s")]),
        ("x", AnyVal.bool true)]) = Result.ok e' → e = e') :=
  ⟨rfl, rfl,
   (toExpr_deterministic
      (AnyVal.obj [("x", AnyVal.bool true),
        ("y", AnyVal.obj [("b", AnyVal.str "s"), ("a", AnyVal.arr [])])])
      (AnyVal.obj [("y", AnyVal.obj [("a", AnyVal.arr []), ("b", AnyVal.str "s")]),
        ("x", AnyVal.bool true)])
      (by
        rw [sameValue]
        refine ⟨_, rfl, ?_⟩
        rw [sameFields]
        refine ⟨AnyVal.bool true,
          [("y", AnyVal.obj [("a", AnyVal.arr []), ("b", AnyVal.str "s")])], [], rfl, ?_, ?_⟩
        · rw [sameValue]
        · rw [sameFields]
          refine ⟨AnyVal.obj [("a", AnyVal.arr []), ("b", AnyVal.str "s")], [], [], rfl, ?_, ?_⟩
          · rw [sameValue]
            refine ⟨_, rfl, ?_⟩
            rw [sameFields]
            refine ⟨AnyVal.str "s", [("a", AnyVal.arr [])], [], rfl, ?_, ?_⟩
            · rw [sameValue]
            · rw [sameFields]
              refine ⟨AnyVal.arr [], [], [], rfl, ?_, ?_⟩
              · rw [sameValue]
                exact ⟨[], rfl, by rw [sameList]⟩
              · rw [sameFields]
                rfl
          · rw [sameFields]
            rfl)
      (by decide)).2⟩

end itf
